import Mathlib

/-!
# MoRoTA — verification of the natural-language specification against the code

Shallow embedding of the parts of the MoRoTA simulator and optimizers that the
spec's claims are about, together with theorems settling each claim.

Conventions used throughout this development:

* Python `float` values are embedded as real numbers (`ℝ`) in the simulation
  code (positions, fatigue, durations), and as rationals (`ℚ`) in the
  optimizer code where the claims are about exact arithmetic.
* Python `float("inf")` sentinels are embedded with `WithTop ℚ` (`⊤` = `inf`).
* Python dicts keyed by strings are embedded as association lists
  (`List (String × α)`): lookup finds the first matching key, assignment
  replaces the first matching entry or appends a fresh one at the end, which
  is exactly the observable behaviour of an insertion-ordered dict with
  unique keys.
* Python's stable `list.sort` / `sorted` is embedded as a stable insertion
  sort (`stableSort` below), written with structural recursion so that all
  definitions evaluate.
* Randomness is embedded by explicit oracles: a shuffle is an arbitrary
  function producing a permutation, and `random.choice` / `randrange` draw
  from an explicit stream of naturals reduced modulo the candidate count.
  Theorems quantify over all oracles, so they cover every RNG outcome.
-/

namespace MoRoTA

/-! ## Stable sort helper (Python `sorted` / `list.sort` are stable) -/

/-- Insert `x` into `l` after every element `y` with `le y x`.  Used by
`stableSort`; inserting later elements after equal earlier ones makes the
sort stable, like Python's. -/
def stableInsert (le : α → α → Bool) (x : α) : List α → List α
  | [] => [x]
  | y :: ys => if le y x then y :: stableInsert le x ys else x :: y :: ys

/-- Stable insertion sort: elements are taken left to right and each is
inserted behind all elements already placed that compare `le` to it. -/
def stableSort (le : α → α → Bool) (l : List α) : List α :=
  l.foldl (fun acc x => stableInsert le x acc) []

theorem stableInsert_perm (le : α → α → Bool) (x : α) (l : List α) :
    List.Perm (stableInsert le x l) (x :: l) := by
  induction l with
  | nil => simp [stableInsert]
  | cons y ys ih =>
    by_cases h : le y x
    · simpa [stableInsert, h] using ((ih.cons y).trans (List.Perm.swap x y ys))
    · simp [stableInsert, h]

theorem stableSort_perm (le : α → α → Bool) (l : List α) :
    List.Perm (stableSort le l) l := by
  suffices h : ∀ acc : List α,
      List.Perm (l.foldl (fun acc x => stableInsert le x acc) acc) (acc ++ l) by
    simpa using h []
  induction l with
  | nil => simp
  | cons x xs ih =>
    intro acc
    have h1 : List.Perm ((x :: xs).foldl (fun acc x => stableInsert le x acc) acc)
        (stableInsert le x acc ++ xs) := by
      simpa using ih (stableInsert le x acc)
    have h2 : List.Perm (stableInsert le x acc ++ xs) ((x :: acc) ++ xs) :=
      (stableInsert_perm le x acc).append_right xs
    have h3 : List.Perm ((x :: acc) ++ xs) (acc ++ x :: xs) := by
      simpa using (show List.Perm (acc ++ x :: xs) (x :: (acc ++ xs)) from
        List.perm_middle).symm
    exact (h1.trans h2).trans h3

theorem stableInsert_sorted (le : α → α → Bool)
    (htot : ∀ a b, le a b = false → le b a = true)
    (htrans : ∀ a b c, le a b = true → le b c = true → le a c = true)
    (x : α) (l : List α)
    (hl : l.Pairwise (fun a b => le a b = true)) :
    (stableInsert le x l).Pairwise (fun a b => le a b = true) := by
  induction l with
  | nil => simp [stableInsert]
  | cons y ys ih =>
    rcases List.pairwise_cons.mp hl with ⟨hy, hys⟩
    by_cases h : le y x
    · have hins := ih hys
      rw [stableInsert, if_pos h]
      refine List.pairwise_cons.mpr ⟨?_, hins⟩
      intro b hb
      have hb' := (stableInsert_perm le x ys).mem_iff.mp hb
      rcases List.mem_cons.mp hb' with hbx | hbys
      · simpa [hbx] using h
      · exact hy b hbys
    · rw [stableInsert, if_neg h]
      have hxy : le x y = true := htot _ _ (by simpa using h)
      refine List.pairwise_cons.mpr ⟨?_, hl⟩
      intro b hb
      rcases List.mem_cons.mp hb with hby | hbys
      · simpa [hby] using hxy
      · exact htrans _ _ _ hxy (hy b hbys)

theorem stableSort_sorted (le : α → α → Bool)
    (htot : ∀ a b, le a b = false → le b a = true)
    (htrans : ∀ a b c, le a b = true → le b c = true → le a c = true)
    (l : List α) :
    (stableSort le l).Pairwise (fun a b => le a b = true) := by
  suffices h : ∀ acc : List α, acc.Pairwise (fun a b => le a b = true) →
      (l.foldl (fun acc x => stableInsert le x acc) acc).Pairwise
        (fun a b => le a b = true) by
    exact h [] (by simp)
  induction l with
  | nil => intro acc hacc; simpa using hacc
  | cons x xs ih =>
    intro acc hacc
    exact ih _ (stableInsert_sorted le htot htrans x acc hacc)

/-! ## Poisson-binomial DP
(`src/morota/opt/task_order/evaluator.py`,
`ExpectedMakespanEvaluator._poisson_binomial_count_pmf`) -/

/-- One iteration of the Poisson-binomial dynamic program: the survival
probability is clamped to `[0,1]` (`p = max(0.0, min(1.0, float(p)))`) and
`nxt[k] += v*(1-p); nxt[k+1] += v*p` over all `k`, which is the elementwise
sum below. -/
def pmfStep (dp : List ℚ) (p : ℚ) : List ℚ :=
  let q := max 0 (min 1 p)
  List.zipWith (· + ·) (dp.map (· * (1 - q)) ++ [0]) (0 :: dp.map (· * q))

/-- `_poisson_binomial_count_pmf(ps)`: starting from `dp = [1.0]`, fold
`pmfStep` over the survival probabilities. -/
def poissonBinomialCountPmf (ps : List ℚ) : List ℚ := ps.foldl pmfStep [1]

theorem sum_zipWith_add (l₁ l₂ : List ℚ) (h : l₁.length = l₂.length) :
    (List.zipWith (· + ·) l₁ l₂).sum = l₁.sum + l₂.sum := by
  induction l₁ generalizing l₂ with
  | nil => cases l₂ with
    | nil => simp
    | cons b bs => simp at h
  | cons a as ih => cases l₂ with
    | nil => simp at h
    | cons b bs =>
      simp only [List.zipWith_cons_cons, List.sum_cons, ih bs (by simpa using h)]
      ring

theorem mem_zipWith_add_nonneg (l₁ l₂ : List ℚ)
    (h₁ : ∀ x ∈ l₁, 0 ≤ x) (h₂ : ∀ x ∈ l₂, 0 ≤ x) :
    ∀ x ∈ List.zipWith (· + ·) l₁ l₂, 0 ≤ x := by
  induction l₁ generalizing l₂ with
  | nil => simp
  | cons a as ih => cases l₂ with
    | nil => simp
    | cons b bs =>
      intro x hx
      rcases List.mem_cons.mp hx with rfl | hx'
      · exact add_nonneg (h₁ a (by simp)) (h₂ b (by simp))
      · exact ih bs (fun y hy => h₁ y (by simp [hy])) (fun y hy => h₂ y (by simp [hy])) x hx'

theorem sum_map_mul_const (l : List ℚ) (c : ℚ) :
    (l.map (· * c)).sum = l.sum * c := by
  induction l with
  | nil => simp
  | cons a as ih => simp [ih]; ring

theorem pmfStep_length (dp : List ℚ) (p : ℚ) :
    (pmfStep dp p).length = dp.length + 1 := by
  simp [pmfStep]

theorem pmfStep_sum (dp : List ℚ) (p : ℚ) : (pmfStep dp p).sum = dp.sum := by
  have hq0 : (0 : ℚ) ≤ max 0 (min 1 p) := le_max_left _ _
  rw [pmfStep]
  rw [sum_zipWith_add _ _ (by simp)]
  simp only [List.sum_append, List.sum_cons, List.sum_nil, sum_map_mul_const]
  ring

theorem pmfStep_nonneg (dp : List ℚ) (p : ℚ) (h : ∀ x ∈ dp, 0 ≤ x) :
    ∀ x ∈ pmfStep dp p, 0 ≤ x := by
  have hq0 : (0 : ℚ) ≤ max 0 (min 1 p) := le_max_left _ _
  have hq1 : max 0 (min 1 p) ≤ 1 := max_le (by norm_num) (min_le_left _ _)
  refine mem_zipWith_add_nonneg _ _ ?_ ?_
  · intro x hx
    rcases List.mem_append.mp hx with hx' | hx'
    · rcases List.mem_map.mp hx' with ⟨y, hy, rfl⟩
      exact mul_nonneg (h y hy) (by linarith)
    · simp at hx'; simp [hx']
  · intro x hx
    rcases List.mem_cons.mp hx with rfl | hx'
    · exact le_refl 0
    · rcases List.mem_map.mp hx' with ⟨y, hy, rfl⟩
      exact mul_nonneg (h y hy) hq0

theorem pmf_fold_invariant (ps : List ℚ) (dp : List ℚ) (hnn : ∀ x ∈ dp, 0 ≤ x) :
    (ps.foldl pmfStep dp).length = dp.length + ps.length ∧
    (∀ x ∈ ps.foldl pmfStep dp, 0 ≤ x) ∧
    (ps.foldl pmfStep dp).sum = dp.sum := by
  induction ps generalizing dp with
  | nil => simpa using hnn
  | cons p ps ih =>
    obtain ⟨hlen, hpos, hsum⟩ := ih (pmfStep dp p) (pmfStep_nonneg dp p hnn)
    refine ⟨?_, hpos, ?_⟩
    · simp only [List.foldl_cons, hlen, pmfStep_length, List.length_cons]; omega
    · simp only [List.foldl_cons, hsum, pmfStep_sum]

/-- C9: for every list of `n` survival probabilities in `[0,1]`, the
Poisson-binomial dynamic program returns a vector of length `n+1` whose
entries are nonnegative and whose sum is exactly `1` (exact arithmetic). -/
theorem c9_poisson_binomial_pmf_ok (ps : List ℚ)
    (hps : ∀ p ∈ ps, 0 ≤ p ∧ p ≤ 1) :
    (poissonBinomialCountPmf ps).length = ps.length + 1 ∧
    (∀ x ∈ poissonBinomialCountPmf ps, 0 ≤ x) ∧
    (poissonBinomialCountPmf ps).sum = 1 := by
  obtain ⟨hlen, hpos, hsum⟩ :=
    pmf_fold_invariant ps [1] (by intro x hx; simp at hx; simp [hx])
  refine ⟨?_, hpos, ?_⟩
  · simpa [Nat.add_comm] using hlen
  · simpa using hsum

/-- Witness for C9 at the concrete probability list `[1/2, 1/3]`. -/
theorem c9_poisson_binomial_pmf_ok_witness :
    (poissonBinomialCountPmf [1/2, 1/3]).length = 3 ∧
    (∀ x ∈ poissonBinomialCountPmf [1/2, 1/3], 0 ≤ x) ∧
    (poissonBinomialCountPmf [1/2, 1/3]).sum = 1 :=
  c9_poisson_binomial_pmf_ok [1/2, 1/3] (by norm_num)

/-! ## Weibull failure model (`src/morota/sim/failure_models.py`) -/

/-- The Weibull cumulative failure law used inside
`WeibullFailureModel.failure_prob_step`: `F(x) = 1.0 - exp(-(x/l)**k)`. -/
noncomputable def weibullF (l k x : ℝ) : ℝ := 1 - Real.exp (-((x / l) ^ k))

/-- `WeibullFailureModel.failure_prob`: `0` when `H ≤ 0` or the scale or
shape parameter is nonpositive, else the Weibull CDF. -/
noncomputable def failure_prob (l k H : ℝ) : ℝ :=
  if H ≤ 0 ∨ l ≤ 0 ∨ k ≤ 0 then 0 else weibullF l k H

/-- `WeibullFailureModel.failure_prob_step`: `0` when `ΔH ≤ 0` or a
parameter is nonpositive; `1` when `F(H) ≥ 1`; else the conditional
probability `(F(H+ΔH) - F(H)) / (1 - F(H))`. -/
noncomputable def failure_prob_step (l k H dH : ℝ) : ℝ :=
  if dH ≤ 0 ∨ l ≤ 0 ∨ k ≤ 0 then 0
  else if 1 ≤ weibullF l k H then 1
  else (weibullF l k (H + dH) - weibullF l k H) / (1 - weibullF l k H)

theorem weibullF_lt_one (l k H : ℝ) : weibullF l k H < 1 :=
  sub_lt_self 1 (Real.exp_pos _)

theorem weibullF_nonneg (l k x : ℝ) (hl : 0 < l) (hk : 0 < k) (hx : 0 ≤ x) :
    0 ≤ weibullF l k x := by
  have hy : (0 : ℝ) ≤ (x / l) ^ k := Real.rpow_nonneg (div_nonneg hx hl.le) k
  have : Real.exp (-((x / l) ^ k)) ≤ 1 := Real.exp_le_one_iff.mpr (by linarith)
  simp only [weibullF]; linarith

theorem weibullF_le_one (l k x : ℝ) : weibullF l k x ≤ 1 :=
  (weibullF_lt_one l k x).le

theorem weibullF_mono (l k : ℝ) (hl : 0 < l) (hk : 0 < k) {x y : ℝ}
    (hx : 0 ≤ x) (hxy : x ≤ y) : weibullF l k x ≤ weibullF l k y := by
  have h1 : x / l ≤ y / l := by gcongr
  have h2 : (x / l) ^ k ≤ (y / l) ^ k :=
    Real.rpow_le_rpow (div_nonneg hx hl.le) h1 hk.le
  have h3 : Real.exp (-((y / l) ^ k)) ≤ Real.exp (-((x / l) ^ k)) :=
    Real.exp_le_exp.mpr (by linarith)
  simp only [weibullF]; linarith

theorem failure_prob_nonneg (l k H : ℝ) (hl : 0 < l) (hk : 0 < k) :
    0 ≤ failure_prob l k H := by
  rw [failure_prob]
  split
  · exact le_refl 0
  · next h =>
    push_neg at h
    exact weibullF_nonneg l k H hl hk h.1.le

theorem failure_prob_le_one (l k H : ℝ) : failure_prob l k H ≤ 1 := by
  rw [failure_prob]
  split
  · norm_num
  · exact weibullF_le_one l k H

theorem failure_prob_mono (l k : ℝ) (hl : 0 < l) (hk : 0 < k) {H H2 : ℝ}
    (h : H ≤ H2) : failure_prob l k H ≤ failure_prob l k H2 := by
  by_cases hH : H ≤ 0
  · rw [failure_prob, if_pos (Or.inl hH)]
    exact failure_prob_nonneg l k H2 hl hk
  · have hH2 : ¬ H2 ≤ 0 := fun hc => hH (h.trans hc)
    rw [failure_prob, failure_prob,
      if_neg (by push_neg; exact ⟨lt_of_not_le hH, hl, hk⟩),
      if_neg (by push_neg; exact ⟨lt_of_not_le hH2, hl, hk⟩)]
    exact weibullF_mono l k hl hk (le_of_not_le hH) h

/-- C5: with positive Weibull scale and shape, `failure_prob_step(H, ΔH)`
returns `0` when `ΔH ≤ 0` and otherwise equals
`(F(H+ΔH) - F(H)) / (1 - F(H))` (the `F(H) ≥ 1` fallback branch is
unreachable over the reals, since `F(H) < 1` always); and `failure_prob`
is nondecreasing in `H` and bounded in `[0, 1]`. -/
theorem c5_weibull_failure_model_ok (l k H H2 dH : ℝ)
    (hl : 0 < l) (hk : 0 < k) (hH : 0 ≤ H) (hHH2 : H ≤ H2) :
    (dH ≤ 0 → failure_prob_step l k H dH = 0) ∧
    (0 < dH → weibullF l k H < 1 ∧
      failure_prob_step l k H dH =
        (weibullF l k (H + dH) - weibullF l k H) / (1 - weibullF l k H)) ∧
    failure_prob l k H ≤ failure_prob l k H2 ∧
    0 ≤ failure_prob l k H ∧ failure_prob l k H ≤ 1 := by
  refine ⟨?_, ?_, failure_prob_mono l k hl hk hHH2,
    failure_prob_nonneg l k H hl hk, failure_prob_le_one l k H⟩
  · intro hdH
    rw [failure_prob_step, if_pos (Or.inl hdH)]
  · intro hdH
    refine ⟨weibullF_lt_one l k H, ?_⟩
    rw [failure_prob_step,
      if_neg (by push_neg; exact ⟨hdH, hl, hk⟩),
      if_neg (not_le.mpr (weibullF_lt_one l k H))]

/-- Witness for C5 at `λ = 1`, `k = 1`, `H = 0`, `H2 = 1`, `ΔH = 1`. -/
theorem c5_weibull_failure_model_ok_witness :
    (1 ≤ (0:ℝ) → failure_prob_step 1 1 0 1 = 0) ∧
    (0 < (1:ℝ) → weibullF 1 1 0 < 1 ∧
      failure_prob_step 1 1 0 1 =
        (weibullF 1 1 (0 + 1) - weibullF 1 1 0) / (1 - weibullF 1 1 0)) ∧
    failure_prob 1 1 0 ≤ failure_prob 1 1 1 ∧
    0 ≤ failure_prob 1 1 0 ∧ failure_prob 1 1 0 ≤ 1 :=
  c5_weibull_failure_model_ok 1 1 0 1 1 (by norm_num) (by norm_num)
    (by norm_num) (by norm_num)

/-! ## Task agent (`src/morota/sim/agent/task_agent.py`) -/

inductive TStatus
  | pending
  | inProgress
  | done
deriving DecidableEq

/-- The fields of `TaskAgent`. -/
structure TaskState where
  taskId : Int
  totalWork : ℝ
  remainingWork : ℝ
  status : TStatus
  finishedStep : Option Nat
  stepWorkAmount : ℝ
  hasWorkerThisStep : Bool

/-- `TaskAgent.__init__`: a task created with `remaining_work ≤ 0` starts
`done` with `finished_step = 0`, otherwise `pending`. -/
noncomputable def TaskState.init (taskId : Int) (totalWork remainingWork : ℝ) :
    TaskState :=
  if remainingWork ≤ 0 then
    ⟨taskId, totalWork, remainingWork, .done, some 0, 0, false⟩
  else
    ⟨taskId, totalWork, remainingWork, .pending, none, 0, false⟩

/-- `TaskAgent.begin_step`. -/
def TaskState.beginStep (t : TaskState) : TaskState :=
  { t with stepWorkAmount := 0, hasWorkerThisStep := false }

/-- `TaskAgent.add_work`. -/
def TaskState.addWork (t : TaskState) (amount : ℝ) : TaskState :=
  { t with stepWorkAmount := t.stepWorkAmount + amount,
           hasWorkerThisStep := true }

/-- `TaskAgent.end_step` (with `self.model.steps` passed explicitly). -/
noncomputable def TaskState.endStep (t : TaskState) (modelSteps : Nat) :
    TaskState :=
  if t.status = .done then t
  else
    let r := t.remainingWork - t.stepWorkAmount
    if r ≤ 0 then
      { t with remainingWork := 0, status := .done,
               finishedStep := some modelSteps }
    else if t.hasWorkerThisStep then
      { t with remainingWork := r, status := .inProgress }
    else
      { t with remainingWork := r, status := .pending }

/-- One scheduler step as seen by a task: `begin_step`, then the work added
by the workers this step (each `add_work` call is guarded by
`target_task.status != "done"` in `WorkerAgent._step_work`; the status can
only change in `end_step`, so the guard is a single test per step), then
`end_step`. -/
noncomputable def TaskState.step (t : TaskState) (amounts : List ℝ)
    (modelSteps : Nat) : TaskState :=
  let t1 := t.beginStep
  let t2 := if t1.status = .done then t1 else amounts.foldl TaskState.addWork t1
  t2.endStep modelSteps

/-- A run: a sequence of scheduler steps. -/
noncomputable def TaskState.run (t : TaskState)
    (steps : List (List ℝ × Nat)) : TaskState :=
  steps.foldl (fun s p => s.step p.1 p.2) t

theorem foldl_addWork_fields (amounts : List ℝ) (t : TaskState) :
    (amounts.foldl TaskState.addWork t).remainingWork = t.remainingWork ∧
    (amounts.foldl TaskState.addWork t).totalWork = t.totalWork ∧
    (amounts.foldl TaskState.addWork t).status = t.status ∧
    (amounts.foldl TaskState.addWork t).finishedStep = t.finishedStep ∧
    (amounts.foldl TaskState.addWork t).taskId = t.taskId := by
  induction amounts generalizing t with
  | nil => simp
  | cons a as ih => simpa [TaskState.addWork] using ih (t.addWork a)

theorem foldl_addWork_nonneg (amounts : List ℝ) (t : TaskState)
    (h : ∀ a ∈ amounts, 0 ≤ a) (h0 : 0 ≤ t.stepWorkAmount) :
    0 ≤ (amounts.foldl TaskState.addWork t).stepWorkAmount := by
  induction amounts generalizing t with
  | nil => simpa using h0
  | cons a as ih =>
    refine ih (t.addWork a) (fun b hb => h b (by simp [hb])) ?_
    have := h a (by simp)
    simp only [TaskState.addWork]
    linarith

theorem taskStep_invariants (t : TaskState) (amounts : List ℝ)
    (ms : Nat) (ha : ∀ a ∈ amounts, 0 ≤ a)
    (h0 : 0 ≤ t.remainingWork) (h1 : t.remainingWork ≤ t.totalWork) :
    (t.step amounts ms).remainingWork ≤ t.remainingWork ∧
    0 ≤ (t.step amounts ms).remainingWork ∧
    (t.step amounts ms).totalWork = t.totalWork ∧
    (t.status = .done → t.step amounts ms = t.beginStep) := by
  classical
  have htotal : (0:ℝ) ≤ t.totalWork := h0.trans h1
  by_cases hdone : t.status = .done
  · have hstep : t.step amounts ms = t.beginStep := by
      simp [TaskState.step, TaskState.beginStep, TaskState.endStep, hdone]
    refine ⟨?_, ?_, ?_, fun _ => hstep⟩ <;>
      simp [hstep, TaskState.beginStep, h0]
  · set t2 := amounts.foldl TaskState.addWork t.beginStep with ht2
    obtain ⟨hr, htw, hs, hf, hid⟩ := foldl_addWork_fields amounts t.beginStep
    have hw : 0 ≤ t2.stepWorkAmount :=
      foldl_addWork_nonneg amounts t.beginStep ha (by simp [TaskState.beginStep])
    have hr' : t2.remainingWork = t.remainingWork := by
      simpa [TaskState.beginStep] using hr
    have htw' : t2.totalWork = t.totalWork := by
      simpa [TaskState.beginStep] using htw
    have hs' : t2.status = t.status := by
      simpa [TaskState.beginStep] using hs
    have hstep : t.step amounts ms = t2.endStep ms := by
      simp [TaskState.step, TaskState.beginStep, hdone, ht2]
    rw [hstep, TaskState.endStep, if_neg (by rw [hs']; exact hdone)]
    by_cases hle : t2.remainingWork - t2.stepWorkAmount ≤ 0
    · rw [if_pos hle]
      exact ⟨by simpa using h0, by simp, by simpa using htw', fun hc => absurd hc hdone⟩
    · rw [if_neg hle]
      have hrem : t2.remainingWork - t2.stepWorkAmount ≤ t.remainingWork := by
        rw [hr']; linarith
      have hpos : 0 ≤ t2.remainingWork - t2.stepWorkAmount :=
        (lt_of_not_le hle).le
      by_cases hwk : t2.hasWorkerThisStep
      · rw [if_pos hwk]
        exact ⟨hrem, hpos, htw', fun hc => absurd hc hdone⟩
      · rw [if_neg hwk]
        exact ⟨hrem, hpos, htw', fun hc => absurd hc hdone⟩

theorem taskStep_done_frozen (t : TaskState) (amounts : List ℝ) (ms : Nat)
    (hdone : t.status = .done) :
    (t.step amounts ms).status = .done ∧
    (t.step amounts ms).remainingWork = t.remainingWork ∧
    (t.step amounts ms).totalWork = t.totalWork ∧
    (t.step amounts ms).finishedStep = t.finishedStep := by
  classical
  have hstep : t.step amounts ms = t.beginStep := by
    simp [TaskState.step, TaskState.beginStep, TaskState.endStep, hdone]
  simp [hstep, TaskState.beginStep, hdone]

/-- C6: `remaining_work` is nonincreasing along any run and stays within
`[0, total_work]`; once a task is `done` it stays `done` with
`remaining_work`, `total_work` and `finished_step` frozen, and `end_step`
is literally a no-op on a done task. -/
theorem c6_task_monotone_and_done_frozen (t : TaskState)
    (steps : List (List ℝ × Nat))
    (ha : ∀ p ∈ steps, ∀ a ∈ p.1, 0 ≤ a)
    (h0 : 0 ≤ t.remainingWork) (h1 : t.remainingWork ≤ t.totalWork) :
    (t.run steps).remainingWork ≤ t.remainingWork ∧
    0 ≤ (t.run steps).remainingWork ∧
    (t.run steps).remainingWork ≤ (t.run steps).totalWork ∧
    (t.run steps).totalWork = t.totalWork ∧
    (t.status = .done →
      (t.run steps).status = .done ∧
      (t.run steps).remainingWork = t.remainingWork ∧
      (t.run steps).finishedStep = t.finishedStep) ∧
    (∀ ms, t.status = .done → t.endStep ms = t) := by
  classical
  induction steps generalizing t with
  | nil =>
    refine ⟨le_refl _, h0, h1, rfl, fun h => ⟨h, rfl, rfl⟩, fun ms h => ?_⟩
    rw [TaskState.endStep, if_pos h]
  | cons p ps ih =>
    have hp : ∀ a ∈ p.1, 0 ≤ a := ha p (by simp)
    obtain ⟨hd1, hd2, hd3, _⟩ :=
      taskStep_invariants t p.1 p.2 hp h0 h1
    have hbounds := taskStep_invariants t p.1 p.2 hp h0 h1
    have hrun : t.run (p :: ps) = (t.step p.1 p.2).run ps := by
      simp [TaskState.run]
    obtain ⟨ih1, ih2, ih3, ih4, ih5, _⟩ :=
      ih (t.step p.1 p.2) (fun q hq => ha q (by simp [hq])) hd2
        (by rw [hd3]; exact hd1.trans h1)
    refine ⟨?_, ?_, ?_, ?_, ?_, fun ms h => ?_⟩
    · rw [hrun]; exact ih1.trans hd1
    · rw [hrun]; exact ih2
    · rw [hrun]; exact ih3
    · rw [hrun, ih4, hd3]
    · intro hdone
      obtain ⟨f1, f2, f3, f4⟩ := taskStep_done_frozen t p.1 p.2 hdone
      obtain ⟨g1, g2, g3⟩ := ih5 f1
      exact ⟨by rw [hrun]; exact g1, by rw [hrun, g2, f2],
        by rw [hrun, g3, f4]⟩
    · rw [TaskState.endStep, if_pos h]

/-- Witness for C6 at a concrete task and a concrete two-step run. -/
theorem c6_task_monotone_and_done_frozen_witness :
    ((TaskState.init 0 10 10).run [([2, 3], 1), ([4], 2)]).remainingWork ≤
      (TaskState.init 0 10 10).remainingWork ∧
    0 ≤ ((TaskState.init 0 10 10).run [([2, 3], 1), ([4], 2)]).remainingWork ∧
    ((TaskState.init 0 10 10).run [([2, 3], 1), ([4], 2)]).remainingWork ≤
      ((TaskState.init 0 10 10).run [([2, 3], 1), ([4], 2)]).totalWork ∧
    ((TaskState.init 0 10 10).run [([2, 3], 1), ([4], 2)]).totalWork =
      (TaskState.init 0 10 10).totalWork ∧
    ((TaskState.init 0 10 10).status = .done →
      ((TaskState.init 0 10 10).run [([2, 3], 1), ([4], 2)]).status = .done ∧
      ((TaskState.init 0 10 10).run [([2, 3], 1), ([4], 2)]).remainingWork =
        (TaskState.init 0 10 10).remainingWork ∧
      ((TaskState.init 0 10 10).run [([2, 3], 1), ([4], 2)]).finishedStep =
        (TaskState.init 0 10 10).finishedStep) ∧
    (∀ ms, (TaskState.init 0 10 10).status = .done →
      (TaskState.init 0 10 10).endStep ms = TaskState.init 0 10 10) := by
  refine c6_task_monotone_and_done_frozen (TaskState.init 0 10 10)
    [([2, 3], 1), ([4], 2)] ?_ ?_ ?_
  · intro p hp a hap
    fin_cases hp <;> fin_cases hap <;> norm_num
  · norm_num [TaskState.init]
  · norm_num [TaskState.init]

/-! ## Association lists (Python dicts keyed by module-type strings) -/

/-- `dict.get(t, dflt)`: value of the first entry with key `t`. -/
def alistGetD (bt : List (String × α)) (t : String) (dflt : α) : α :=
  match bt with
  | [] => dflt
  | (s, v) :: rest => if s = t then v else alistGetD rest t dflt

/-- `dict[t] = v`: replace the value of the first entry with key `t`, or
append a fresh entry at the end (insertion order of a Python dict). -/
def alistSet (bt : List (String × α)) (t : String) (v : α) :
    List (String × α) :=
  match bt with
  | [] => [(t, v)]
  | (s, w) :: rest => if s = t then (s, v) :: rest else (s, w) :: alistSet rest t v

theorem alistGetD_set_self (bt : List (String × α)) (t : String) (v dflt : α) :
    alistGetD (alistSet bt t v) t dflt = v := by
  induction bt with
  | nil => simp [alistGetD, alistSet]
  | cons p rest ih =>
    by_cases h : p.1 = t
    · simp [alistGetD, alistSet, h]
    · simpa [alistGetD, alistSet, h] using ih

theorem alistGetD_set_ne (bt : List (String × α)) (t s : String) (v dflt : α)
    (h : s ≠ t) : alistGetD (alistSet bt t v) s dflt = alistGetD bt s dflt := by
  induction bt with
  | nil => simp [alistGetD, alistSet, Ne.symm h]
  | cons p rest ih =>
    rcases p with ⟨ps, pv⟩
    by_cases hp : ps = t
    · subst hp
      simp [alistGetD, alistSet, Ne.symm h]
    · by_cases hs : ps = s
      · subst hs
        simp [alistGetD, alistSet, hp]
      · simp [alistGetD, alistSet, hp, hs, ih]

theorem alistSet_set (bt : List (String × α)) (t : String) (v w : α) :
    alistSet (alistSet bt t v) t w = alistSet bt t w := by
  induction bt with
  | nil => simp [alistSet]
  | cons p rest ih =>
    by_cases h : p.1 = t <;> simp [alistSet, h, ih]

/-- Concatenation of all values of the association list. -/
def alistJoin (bt : List (String × List α)) : List α :=
  (bt.map Prod.snd).flatten

theorem alistJoin_decomp (bt : List (String × List α)) (t : String) :
    List.Perm (alistJoin bt)
      (alistGetD bt t [] ++ alistJoin (alistSet bt t [])) := by
  induction bt with
  | nil => simp [alistJoin, alistGetD, alistSet]
  | cons p rest ih =>
    by_cases h : p.1 = t
    · simp [alistJoin, alistGetD, alistSet, h]
    · simp only [alistJoin, List.map_cons, List.join_cons, alistGetD,
        alistSet, h, if_neg h]
      have step : List.Perm (p.2 ++ alistJoin rest)
          (p.2 ++ (alistGetD rest t [] ++ alistJoin (alistSet rest t []))) :=
        (ih).append_left p.2
      refine step.trans ?_
      have hswap : List.Perm
          (p.2 ++ (alistGetD rest t [] ++ alistJoin (alistSet rest t [])))
          (alistGetD rest t [] ++ (p.2 ++ alistJoin (alistSet rest t []))) := by
        simpa [List.append_assoc] using
          ((show List.Perm (p.2 ++ alistGetD rest t [])
              (alistGetD rest t [] ++ p.2) from
            List.perm_append_comm).append_right
              (alistJoin (alistSet rest t [])))
      simpa [alistJoin] using hswap

theorem alistSet_keys_mem (bt : List (String × α)) (t : String) (v : α)
    (h : t ∈ bt.map Prod.fst) :
    (alistSet bt t v).map Prod.fst = bt.map Prod.fst := by
  induction bt with
  | nil => simp at h
  | cons p rest ih =>
    by_cases hp : p.1 = t
    · simp [alistSet, hp]
    · have : t ∈ rest.map Prod.fst := by
        rcases List.mem_map.mp h with ⟨q, hq, hqt⟩
        rcases List.mem_cons.mp hq with rfl | hq'
        · exact absurd hqt hp
        · exact List.mem_map.mpr ⟨q, hq', hqt⟩
      simp [alistSet, hp, ih this]

theorem alistSet_keys_not_mem (bt : List (String × α)) (t : String) (v : α)
    (h : t ∉ bt.map Prod.fst) :
    (alistSet bt t v).map Prod.fst = bt.map Prod.fst ++ [t] := by
  induction bt with
  | nil => simp [alistSet]
  | cons p rest ih =>
    have hp : ¬ p.1 = t := fun hc => h (by simp [hc])
    have hrest : t ∉ rest.map Prod.fst := fun hc => h (by simp [hc])
    simp [alistSet, hp, ih hrest]

theorem alistGetD_mem_of_ne_nil (bt : List (String × List α)) (t : String)
    (h : alistGetD bt t [] ≠ []) : t ∈ bt.map Prod.fst := by
  induction bt with
  | nil => simp [alistGetD] at h
  | cons p rest ih =>
    by_cases hp : p.1 = t
    · simp [hp]
    · rw [alistGetD, if_neg hp] at h
      simp [ih h]

theorem mem_alistGetD_mem_join (bt : List (String × List α)) (t : String)
    (m : α) (h : m ∈ alistGetD bt t []) : m ∈ alistJoin bt := by
  induction bt with
  | nil => simp [alistGetD] at h
  | cons p rest ih =>
    by_cases hp : p.1 = t
    · rw [alistGetD, if_pos hp] at h
      simp [alistJoin, h]
    · rw [alistGetD, if_neg hp] at h
      simp only [alistJoin, List.map_cons, List.join_cons, List.mem_append]
      exact Or.inr (ih h)

/-! ## Modules and the depot
(`src/morota/sim/module.py`, `src/morota/sim/agent/depot_agent.py`) -/

inductive MState
  | healthy
  | failed
deriving DecidableEq

/-- The `Module` dataclass of `sim/module.py`. -/
structure Module where
  id : Int
  type : String
  x : ℝ
  y : ℝ
  H : ℝ
  deltaH : ℝ
  state : MState

/-- `DepotAgent` state: `_by_type` (dict type → list of modules) and `_ids`
(set of module ids, embedded as a duplicate-free list). -/
structure Depot where
  byType : List (String × List Module)
  ids : List Int

/-- `self._by_type.get(t, [])`. -/
def Depot.stockOf (d : Depot) (t : String) : List Module :=
  alistGetD d.byType t []

/-- `DepotAgent.count`. -/
def Depot.count (d : Depot) (t : String) : Nat := (d.stockOf t).length

/-- `DepotAgent.can_cover`: every requested count is available.  (Requests
are per-type counts, so the `k < 0` `ValueError` branch of the source
cannot arise.) -/
def Depot.canCover (d : Depot) (request : List (String × Nat)) : Bool :=
  request.all fun p => p.2 ≤ d.count p.1

/-- `lst.pop()` iterated `k` times: the popped modules in pop order and the
remaining list. -/
def popLastN (l : List Module) (k : Nat) : List Module × List Module :=
  ((l.drop (l.length - k)).reverse, l.take (l.length - k))

/-- One iteration of the loop in `DepotAgent.take`: skip `k ≤ 0`, else pop
`k` modules from the end of the per-type list and drop their ids. -/
def Depot.takeEntry (acc : List Module × Depot) (p : String × Nat) :
    List Module × Depot :=
  if p.2 = 0 then acc
  else
    let d := acc.2
    let lst := d.stockOf p.1
    let (popped, rest) := popLastN lst p.2
    (acc.1 ++ popped,
     ⟨alistSet d.byType p.1 rest,
      popped.foldl (fun ids m => ids.erase m.id) d.ids⟩)

/-- `DepotAgent.take`: `None` (no mutation) unless every requested count is
available, else the popped modules and the new depot state. -/
def Depot.take (d : Depot) (request : List (String × Nat)) :
    Option (List Module × Depot) :=
  if d.canCover request then some (request.foldl Depot.takeEntry ([], d))
  else none

/-- `DepotAgent.put`: failed modules are silently dropped, a duplicate id is
a fatal error (`None` here), healthy fresh modules are appended to their
per-type list. -/
def Depot.put : Depot → List Module → Option Depot
  | d, [] => some d
  | d, m :: rest =>
    if m.state = .failed then d.put rest
    else if m.id ∈ d.ids then none
    else Depot.put
      ⟨alistSet d.byType m.type (d.stockOf m.type ++ [m]), m.id :: d.ids⟩ rest

/-- All modules stored in the depot. -/
def Depot.allModules (d : Depot) : List Module := alistJoin d.byType

/-- Depot well-formedness: unique dict keys, modules filed under their own
type, globally distinct module ids, and `_ids` in sync with the stored
modules.  These are exactly the invariants `DepotAgent` maintains
(`_init_stock` rejects duplicate ids; §4.3 of the spec). -/
structure Depot.WF (d : Depot) : Prop where
  keysNodup : (d.byType.map Prod.fst).Nodup
  typed : ∀ p ∈ d.byType, ∀ m ∈ p.2, m.type = p.1
  modIdsNodup : (d.allModules.map Module.id).Nodup
  idsNodup : d.ids.Nodup
  idsIff : ∀ i : Int, i ∈ d.ids ↔ i ∈ d.allModules.map Module.id

theorem alistGetD_typed (bt : List (String × List Module)) (t : String)
    (h : ∀ p ∈ bt, ∀ m ∈ p.2, m.type = p.1) :
    ∀ m ∈ alistGetD bt t [], m.type = t := by
  induction bt with
  | nil => intro m hm; simp [alistGetD] at hm
  | cons p rest ih =>
    intro m hm
    by_cases hp : p.1 = t
    · rw [alistGetD, if_pos hp] at hm
      rw [← hp]
      exact h p (by simp) m hm
    · rw [alistGetD, if_neg hp] at hm
      exact ih (fun q hq => h q (List.mem_cons_of_mem _ hq)) m hm

theorem stockOf_typed (d : Depot) (hwf : d.WF) (t : String) :
    ∀ m ∈ d.stockOf t, m.type = t :=
  alistGetD_typed d.byType t hwf.typed

theorem mem_alistSet (bt : List (String × α)) (t : String) (v : α) :
    ∀ p ∈ alistSet bt t v, p ∈ bt ∨ p = (t, v) := by
  induction bt with
  | nil => intro p hp; simp [alistSet] at hp; simp [hp]
  | cons q rest ih =>
    intro p hp
    by_cases hq : q.1 = t
    · rw [alistSet, if_pos hq] at hp
      rcases List.mem_cons.mp hp with rfl | hp'
      · right; rw [← hq]
      · left; exact List.mem_cons_of_mem _ hp'
    · rw [alistSet, if_neg hq] at hp
      rcases List.mem_cons.mp hp with rfl | hp'
      · left; exact List.mem_cons_self _ _
      · rcases ih p hp' with h | h
        · left; exact List.mem_cons_of_mem _ h
        · right; exact h

theorem foldl_erase_spec (ms : List Module) (ids : List Int)
    (h : ids.Nodup) :
    (ms.foldl (fun ids m => ids.erase m.id) ids).Nodup ∧
    ∀ i, i ∈ ms.foldl (fun ids m => ids.erase m.id) ids ↔
      i ∈ ids ∧ i ∉ ms.map Module.id := by
  induction ms generalizing ids with
  | nil => exact ⟨h, fun i => by simp⟩
  | cons m rest ih =>
    obtain ⟨hn, hiff⟩ := ih (ids.erase m.id) (h.erase m.id)
    refine ⟨hn, fun i => ?_⟩
    rw [List.foldl_cons] at *
    rw [hiff i, h.mem_erase_iff]
    simp only [List.map_cons, List.mem_cons]
    constructor
    · rintro ⟨⟨hne, hin⟩, hnotin⟩
      exact ⟨hin, fun hc => hc.elim hne hnotin⟩
    · rintro ⟨hin, hnotin⟩
      exact ⟨⟨fun hc => hnotin (Or.inl hc), hin⟩, fun hc => hnotin (Or.inr hc)⟩

/-- The per-entry specification of the loop body of `DepotAgent.take`. -/
theorem takeEntry_spec (d : Depot) (hwf : d.WF) (g : List Module)
    (t : String) (k : Nat) (hk : k ≤ d.count t) :
    ∃ (popped : List Module) (d' : Depot),
      Depot.takeEntry (g, d) (t, k) = (g ++ popped, d') ∧
      popped.length = k ∧
      (∀ m ∈ popped, m.type = t) ∧
      d'.count t = d.count t - k ∧
      (∀ s, s ≠ t → d'.count s = d.count s) ∧
      List.Perm d.allModules (popped ++ d'.allModules) ∧
      (∀ i, i ∈ d'.ids ↔ i ∈ d.ids ∧ i ∉ popped.map Module.id) ∧
      d'.WF := by
  by_cases hk0 : k = 0
  · subst hk0
    refine ⟨[], d, by simp [Depot.takeEntry], by simp, by simp, by simp,
      fun s _ => rfl, List.Perm.refl _, by simp, hwf⟩
  · have hkpos : 0 < k := Nat.pos_of_ne_zero hk0
    set lst := d.stockOf t with hlst
    set n := lst.length with hn
    have hcnt : d.count t = n := rfl
    have hkn : k ≤ n := hk
    set popped := (lst.drop (n - k)).reverse with hpopped
    set rest := lst.take (n - k) with hrest
    set R := alistJoin (alistSet d.byType t []) with hR
    set d' : Depot :=
      ⟨alistSet d.byType t rest,
        popped.foldl (fun ids m => ids.erase m.id) d.ids⟩ with hd'
    refine ⟨popped, d', ?_, ?_, ?_, ?_, ?_, ?_, ?_, ?_⟩
    · rw [Depot.takeEntry, if_neg hk0]
      rfl
    · rw [hpopped, List.length_reverse, List.length_drop]
      omega
    · intro m hm
      rw [hpopped, List.mem_reverse] at hm
      exact stockOf_typed d hwf t m (List.mem_of_mem_drop hm)
    · show (d'.stockOf t).length = d.count t - k
      rw [hd', Depot.stockOf, alistGetD_set_self, hrest, List.length_take]
      omega
    · intro s hs
      show (d'.stockOf s).length = (d.stockOf s).length
      rw [hd', Depot.stockOf, alistGetD_set_ne _ _ _ _ _ hs]
      rfl
    · -- d.allModules ~ popped ++ d'.allModules
      have e1 : List.Perm d.allModules (lst ++ R) := alistJoin_decomp d.byType t
      have e2 : List.Perm d'.allModules (rest ++ R) := by
        have h1 := alistJoin_decomp (alistSet d.byType t rest) t
        rw [alistGetD_set_self, alistSet_set] at h1
        exact h1
      have e3 : List.Perm lst (popped ++ rest) := by
        have hsplit : rest ++ lst.drop (n - k) = lst := List.take_append_drop _ _
        have h1 : List.Perm lst (rest ++ lst.drop (n - k)) := by
          rw [hsplit]
        refine h1.trans (List.perm_append_comm.trans ?_)
        exact (List.reverse_perm (lst.drop (n - k))).symm.append_right rest
      refine e1.trans ?_
      have h4 : List.Perm (lst ++ R) ((popped ++ rest) ++ R) := e3.append_right R
      refine h4.trans ?_
      rw [List.append_assoc]
      exact (e2.symm).append_left popped
    · exact (foldl_erase_spec popped d.ids hwf.idsNodup).2
    · -- well-formedness of the updated depot
      have htne : lst ≠ [] := by
        intro hc
        rw [hc] at hn
        simp at hn
        omega
      have htmem : t ∈ d.byType.map Prod.fst :=
        alistGetD_mem_of_ne_nil d.byType t htne
      have e1 : List.Perm d.allModules (lst ++ R) := alistJoin_decomp d.byType t
      have e2 : List.Perm d'.allModules (rest ++ R) := by
        have h1 := alistJoin_decomp (alistSet d.byType t rest) t
        rw [alistGetD_set_self, alistSet_set] at h1
        exact h1
      have e3 : List.Perm lst (popped ++ rest) := by
        have hsplit : rest ++ lst.drop (n - k) = lst := List.take_append_drop _ _
        have h1 : List.Perm lst (rest ++ lst.drop (n - k)) := by
          rw [hsplit]
        refine h1.trans (List.perm_append_comm.trans ?_)
        exact (List.reverse_perm (lst.drop (n - k))).symm.append_right rest
      have hperm : List.Perm d.allModules (popped ++ d'.allModules) := by
        refine e1.trans ?_
        refine (e3.append_right R).trans ?_
        rw [List.append_assoc]
        exact (e2.symm).append_left popped
      have hpermids : List.Perm (d.allModules.map Module.id)
          (popped.map Module.id ++ d'.allModules.map Module.id) := by
        simpa using hperm.map Module.id
      have hnodup' : (popped.map Module.id ++
          d'.allModules.map Module.id).Nodup :=
        (hpermids.nodup_iff).mp hwf.modIdsNodup
      rw [List.nodup_append] at hnodup'
      obtain ⟨hnpop, hnd', hdisj⟩ := hnodup'
      constructor
      · rw [hd']
        show ((alistSet d.byType t rest).map Prod.fst).Nodup
        rw [alistSet_keys_mem _ _ _ htmem]
        exact hwf.keysNodup
      · intro p hp m hm
        rcases mem_alistSet _ _ _ p hp with h | h
        · exact hwf.typed p h m hm
        · rw [h]
          show m.type = t
          rw [h] at hm
          exact stockOf_typed d hwf t m (List.mem_of_mem_take hm)
      · exact hnd'
      · exact (foldl_erase_spec popped d.ids hwf.idsNodup).1
      · intro i
        rw [(foldl_erase_spec popped d.ids hwf.idsNodup).2 i, hwf.idsIff i]
        constructor
        · rintro ⟨hin, hnotin⟩
          have : i ∈ popped.map Module.id ++ d'.allModules.map Module.id :=
            hpermids.mem_iff.mp hin
          rcases List.mem_append.mp this with h | h
          · exact absurd h hnotin
          · exact h
        · intro hin
          refine ⟨hpermids.mem_iff.mpr (List.mem_append.mpr (Or.inr hin)), ?_⟩
          intro hc
          exact hdisj hc hin

theorem canCover_iff (d : Depot) (req : List (String × Nat)) :
    d.canCover req = true ↔ ∀ p ∈ req, p.2 ≤ d.count p.1 := by
  simp [Depot.canCover]

/-- Specification of the whole loop of `DepotAgent.take` on a coverable
request with distinct keys. -/
theorem takeFold_spec (req : List (String × Nat)) (d : Depot)
    (g : List Module) (hwf : d.WF) (hkeys : (req.map Prod.fst).Nodup)
    (hcov : ∀ p ∈ req, p.2 ≤ d.count p.1) :
    ∃ (new : List Module) (d' : Depot),
      req.foldl Depot.takeEntry (g, d) = (g ++ new, d') ∧
      (∀ p ∈ req, (new.filter (fun m => m.type == p.1)).length = p.2 ∧
        d'.count p.1 = d.count p.1 - p.2) ∧
      (∀ s, s ∉ req.map Prod.fst → d'.count s = d.count s ∧
        (new.filter (fun m => m.type == s)).length = 0) ∧
      List.Perm d.allModules (new ++ d'.allModules) ∧
      (∀ i, i ∈ d'.ids ↔ i ∈ d.ids ∧ i ∉ new.map Module.id) ∧
      d'.WF := by
  induction req generalizing d g with
  | nil =>
    exact ⟨[], d, by simp, by simp, fun s _ => ⟨rfl, by simp⟩,
      List.Perm.refl _, by simp, hwf⟩
  | cons p rest ih =>
    rcases p with ⟨t, k⟩
    obtain ⟨popped, d₁, heq, hplen, hptyped, hcount_t, hcount_ne, hperm,
      hids, hwf₁⟩ := takeEntry_spec d hwf g t k (hcov (t, k) (by simp))
    have hkeys' : (rest.map Prod.fst).Nodup := hkeys.of_cons
    have htnotin : t ∉ rest.map Prod.fst := by
      have := hkeys
      rw [List.map_cons, List.nodup_cons] at this
      exact this.1
    have hcov' : ∀ q ∈ rest, q.2 ≤ d₁.count q.1 := by
      intro q hq
      have hne : q.1 ≠ t := by
        intro hc
        exact htnotin (hc ▸ List.mem_map.mpr ⟨q, hq, rfl⟩)
      rw [hcount_ne q.1 hne]
      exact hcov q (List.mem_cons_of_mem _ hq)
    obtain ⟨new₁, d', heq', hin, hnotin, hperm', hids', hwf'⟩ :=
      ih d₁ (g ++ popped) hwf₁ hkeys' hcov'
    refine ⟨popped ++ new₁, d', ?_, ?_, ?_, ?_, ?_, hwf'⟩
    · rw [List.foldl_cons, heq, heq', List.append_assoc]
    · intro q hq
      rcases List.mem_cons.mp hq with rfl | hq'
      · show (((popped ++ new₁).filter (fun m => m.type == t)).length = k ∧
          d'.count t = d.count t - k)
        constructor
        · rw [List.filter_append]
          have h1 : popped.filter (fun m => m.type == t) = popped :=
            List.filter_eq_self.mpr fun m hm => by
              simp [hptyped m hm]
          have h2 : (new₁.filter (fun m => m.type == t)).length = 0 :=
            (hnotin t htnotin).2
          rw [List.length_append, h1, h2, hplen]
          omega
        · rw [(hnotin t htnotin).1, hcount_t]
      · have hne : q.1 ≠ t := by
          intro hc
          exact htnotin (hc ▸ List.mem_map.mpr ⟨q, hq', rfl⟩)
        obtain ⟨hf, hc⟩ := hin q hq'
        constructor
        · rw [List.filter_append, List.length_append, hf]
          have h1 : popped.filter (fun m => m.type == q.1) = [] := by
            rw [List.filter_eq_nil_iff]
            intro m hm
            simp [hptyped m hm, Ne.symm hne]
          rw [h1]
          simp
        · rw [hc, hcount_ne q.1 hne]
    · intro s hs
      have hs1 : s ≠ t := by
        intro hc
        exact hs (by simp [hc])
      have hs2 : s ∉ rest.map Prod.fst := fun hc => hs (by simp [hc])
      obtain ⟨hc1, hc2⟩ := hnotin s hs2
      refine ⟨by rw [hc1, hcount_ne s hs1], ?_⟩
      rw [List.filter_append, List.length_append, hc2]
      have h1 : popped.filter (fun m => m.type == s) = [] := by
        rw [List.filter_eq_nil_iff]
        intro m hm
        simp [hptyped m hm, Ne.symm hs1]
      rw [h1]
      simp
    · refine hperm.trans ?_
      refine (hperm'.append_left popped).trans ?_
      rw [List.append_assoc]
    · intro i
      rw [hids' i, hids i]
      simp only [List.map_append, List.mem_append]
      tauto

/-- Specification of `DepotAgent.put` when no stored id clashes. -/
theorem put_spec (ms : List Module) (d : Depot) (hwf : d.WF)
    (hids : ∀ m ∈ ms, m.state ≠ MState.failed → m.id ∉ d.ids)
    (hnodup : (ms.map Module.id).Nodup) :
    ∃ d'', d.put ms = some d'' ∧ d''.WF ∧
      (∀ t, d''.count t = d.count t +
        (ms.filter (fun m => m.state != MState.failed && m.type == t)).length) ∧
      (∀ i, i ∈ d''.ids ↔ i ∈ d.ids ∨
        i ∈ (ms.filter (fun m => m.state != MState.failed)).map Module.id) := by
  induction ms generalizing d with
  | nil => exact ⟨d, rfl, hwf, fun t => by simp, fun i => by simp⟩
  | cons m rest ih =>
    by_cases hfail : m.state = MState.failed
    · obtain ⟨d'', h1, h2, h3, h4⟩ := ih d hwf
        (fun m' hm' => hids m' (List.mem_cons_of_mem _ hm'))
        (by rw [List.map_cons] at hnodup; exact hnodup.of_cons)
      refine ⟨d'', ?_, h2, ?_, ?_⟩
      · rw [Depot.put, if_pos hfail]; exact h1
      · intro t
        rw [h3 t]
        congr 2
        rw [List.filter_cons]
        simp [hfail]
      · intro i
        rw [h4 i]
        congr! 2
        rw [List.filter_cons]
        simp [hfail]
    · have hmid : m.id ∉ d.ids := hids m (by simp) hfail
      set d₁ : Depot :=
        ⟨alistSet d.byType m.type (d.stockOf m.type ++ [m]), m.id :: d.ids⟩
        with hd₁
      -- new module list is a permutation of the old plus `m`
      have e1 : List.Perm d.allModules
          (d.stockOf m.type ++ alistJoin (alistSet d.byType m.type [])) :=
        alistJoin_decomp d.byType m.type
      have e2 : List.Perm d₁.allModules
          ((d.stockOf m.type ++ [m]) ++
            alistJoin (alistSet d.byType m.type [])) := by
        have h1 := alistJoin_decomp (alistSet d.byType m.type
          (d.stockOf m.type ++ [m])) m.type
        rw [alistGetD_set_self, alistSet_set] at h1
        exact h1
      have hperm : List.Perm d₁.allModules (d.allModules ++ [m]) := by
        refine e2.trans ?_
        have h1 : List.Perm
            ((d.stockOf m.type ++ [m]) ++
              alistJoin (alistSet d.byType m.type []))
            ((d.stockOf m.type ++
              alistJoin (alistSet d.byType m.type [])) ++ [m]) := by
          rw [List.append_assoc, List.append_assoc]
          refine List.Perm.append_left _ ?_
          exact List.perm_append_comm
        exact h1.trans (e1.symm.append_right [m])
      have hmid_mods : m.id ∉ d.allModules.map Module.id :=
        fun hc => hmid ((hwf.idsIff m.id).mpr hc)
      have hwf₁ : d₁.WF := by
        constructor
        · show ((alistSet d.byType m.type _).map Prod.fst).Nodup
          by_cases hmem : m.type ∈ d.byType.map Prod.fst
          · rw [alistSet_keys_mem _ _ _ hmem]; exact hwf.keysNodup
          · rw [alistSet_keys_not_mem _ _ _ hmem]
            simp [List.nodup_append, hwf.keysNodup, hmem]
        · intro p hp mm hmm
          rcases mem_alistSet _ _ _ p hp with h | h
          · exact hwf.typed p h mm hmm
          · rw [h] at hmm ⊢
            rcases List.mem_append.mp hmm with h' | h'
            · exact stockOf_typed d hwf m.type mm h'
            · simp at h'
              simp [h']
        · have := hperm.map Module.id
          rw [List.map_append] at this
          rw [this.nodup_iff]
          rw [List.nodup_append]
          exact ⟨hwf.modIdsNodup, by simp, by
            intro a ha hb
            simp at hb
            rw [hb] at ha
            exact hmid_mods ha⟩
        · exact List.nodup_cons.mpr ⟨hmid, hwf.idsNodup⟩
        · intro i
          have hm : i ∈ _ ↔ i ∈ _ := (hperm.map Module.id).mem_iff
          rw [List.map_append] at hm
          simp only [List.mem_cons, hwf.idsIff i, hm, List.mem_append]
          simp [Or.comm]
      have hcnt₁ : ∀ t, d₁.count t =
          d.count t + (if m.type = t then 1 else 0) := by
        intro t
        by_cases ht : m.type = t
        · subst ht
          show (d₁.stockOf m.type).length = _
          rw [hd₁, Depot.stockOf, alistGetD_set_self]
          simp [Depot.count]
        · show (d₁.stockOf t).length = _
          rw [hd₁, Depot.stockOf, alistGetD_set_ne _ _ _ _ _ (Ne.symm ht)]
          simp [Depot.count, Depot.stockOf, ht]
      have hrestids : ∀ m' ∈ rest, m'.state ≠ MState.failed →
          m'.id ∉ d₁.ids := by
        intro m' hm' hstate
        rw [hd₁]
        simp only [List.mem_cons]
        push_neg
        constructor
        · intro hc
          rw [List.map_cons, List.nodup_cons] at hnodup
          exact hnodup.1 (hc ▸ List.mem_map.mpr ⟨m', hm', rfl⟩)
        · exact hids m' (List.mem_cons_of_mem _ hm') hstate
      obtain ⟨d'', h1, h2, h3, h4⟩ := ih d₁ hwf₁ hrestids
        (by rw [List.map_cons] at hnodup; exact hnodup.of_cons)
      refine ⟨d'', ?_, h2, ?_, ?_⟩
      · rw [Depot.put, if_neg hfail, if_neg hmid]
        exact h1
      · intro t
        rw [h3 t, hcnt₁ t, List.filter_cons]
        by_cases ht : m.type = t
        · simp [hfail, ht]
          omega
        · simp [hfail, ht]
      · intro i
        rw [h4 i, List.filter_cons]
        simp only [hd₁]
        by_cases hi : i = m.id <;> simp [hfail, hi] <;> tauto

/-- C2: `Depot.take` succeeds exactly when every requested per-type count is
available, and then pops exactly the requested number of modules of each
type (counts of unrequested types unchanged); an unsatisfiable request
returns the `None` sentinel without producing a new state; and putting the
taken modules back restores the original per-type counts exactly.
Hypotheses: the depot satisfies the invariants `DepotAgent` maintains
(`Depot.WF`), the request is a dict (distinct keys), and the depot stores
no failed modules (failed modules are dropped on `put` and never stored). -/
theorem c2_depot_take_put_roundtrip (d : Depot) (req : List (String × Nat))
    (hwf : d.WF) (hkeys : (req.map Prod.fst).Nodup)
    (hhealthy : ∀ m ∈ d.allModules, m.state ≠ MState.failed) :
    ((d.take req).isSome ↔ ∀ p ∈ req, p.2 ≤ d.count p.1) ∧
    (¬ (∀ p ∈ req, p.2 ≤ d.count p.1) → d.take req = none) ∧
    ∀ got d', d.take req = some (got, d') →
      (∀ p ∈ req, (got.filter (fun m => m.type == p.1)).length = p.2 ∧
        d'.count p.1 = d.count p.1 - p.2) ∧
      (∀ s, s ∉ req.map Prod.fst → d'.count s = d.count s) ∧
      ∃ d'', d'.put got = some d'' ∧ ∀ t, d''.count t = d.count t := by
  refine ⟨?_, ?_, ?_⟩
  · rw [Depot.take]
    by_cases hcov : d.canCover req = true
    · rw [if_pos hcov]
      simpa using (canCover_iff d req).mp hcov
    · rw [if_neg hcov]
      simp only [Option.isSome_none, Bool.false_eq_true, false_iff]
      intro hc
      exact hcov ((canCover_iff d req).mpr hc)
  · intro hc
    rw [Depot.take, if_neg (fun h => hc ((canCover_iff d req).mp h))]
  · intro got d' htake
    rw [Depot.take] at htake
    by_cases hcov : d.canCover req = true
    · rw [if_pos hcov] at htake
      have hcov' := (canCover_iff d req).mp hcov
      obtain ⟨new, d₀, heq, hin, hnotin, hperm, hids, hwf'⟩ :=
        takeFold_spec req d [] hwf hkeys hcov'
      rw [heq] at htake
      have hgot : new = got := by
        have := (Option.some.injEq _ _).mp htake
        simpa using congrArg Prod.fst this
      have hd' : d₀ = d' := by
        have := (Option.some.injEq _ _).mp htake
        simpa using congrArg Prod.snd this
      subst hgot
      subst hd'
      have hgothealthy : ∀ m ∈ new, m.state ≠ MState.failed := by
        intro m hm
        exact hhealthy m (hperm.mem_iff.mpr (List.mem_append.mpr (Or.inl hm)))
      have hpermids : List.Perm (d.allModules.map Module.id)
          (new.map Module.id ++ d₀.allModules.map Module.id) := by
        simpa using hperm.map Module.id
      have hgotnodup : (new.map Module.id).Nodup := by
        have := (hpermids.nodup_iff).mp hwf.modIdsNodup
        exact (List.nodup_append.mp this).1
      refine ⟨hin, fun s hs => (hnotin s hs).1, ?_⟩
      obtain ⟨d'', hput, hwf'', hcnt, _⟩ := put_spec new d₀ hwf'
        (fun m hm _ => fun hc => ((hids m.id).mp hc).2
          (List.mem_map.mpr ⟨m, hm, rfl⟩))
        hgotnodup
      refine ⟨d'', hput, fun t => ?_⟩
      rw [hcnt t]
      have hfil : new.filter (fun m => m.state != MState.failed &&
          m.type == t) = new.filter (fun m => m.type == t) := by
        apply List.filter_congr
        intro m hm
        simp [hgothealthy m hm]
      rw [hfil]
      by_cases ht : t ∈ req.map Prod.fst
      · rcases List.mem_map.mp ht with ⟨p, hp, hpt⟩
        obtain ⟨hflen, hcount⟩ := hin p hp
        have hk := hcov' p hp
        rw [← hpt, hcount, hflen]
        omega
      · obtain ⟨hc1, hc2⟩ := hnotin t ht
        rw [hc1, hc2]
        omega
    · rw [if_neg hcov] at htake
      exact absurd htake (by simp)

/-- A concrete healthy module for witnesses. -/
def sampleModule (i : Int) (t : String) : Module :=
  ⟨i, t, 0, 0, 0, 0, .healthy⟩

/-- A concrete well-formed depot for witnesses: two `A` modules and one
`B` module. -/
def sampleDepot : Depot :=
  ⟨[("A", [sampleModule 1 "A", sampleModule 2 "A"]),
    ("B", [sampleModule 3 "B"])], [1, 2, 3]⟩

theorem sampleDepot_wf : sampleDepot.WF := by
  refine ⟨by decide, by decide, by decide, by decide, fun i => Iff.rfl⟩

/-- Witness for C2 at the concrete depot and request `{A: 1, B: 1}`. -/
theorem c2_depot_take_put_roundtrip_witness :
    ((sampleDepot.take [("A", 1), ("B", 1)]).isSome ↔
      ∀ p ∈ [("A", 1), ("B", 1)], p.2 ≤ sampleDepot.count p.1) ∧
    (¬ (∀ p ∈ [("A", 1), ("B", 1)], p.2 ≤ sampleDepot.count p.1) →
      sampleDepot.take [("A", 1), ("B", 1)] = none) ∧
    ∀ got d', sampleDepot.take [("A", 1), ("B", 1)] = some (got, d') →
      (∀ p ∈ [("A", 1), ("B", 1)],
        (got.filter (fun m => m.type == p.1)).length = p.2 ∧
        d'.count p.1 = sampleDepot.count p.1 - p.2) ∧
      (∀ s, s ∉ [("A", 1), ("B", 1)].map Prod.fst →
        d'.count s = sampleDepot.count s) ∧
      ∃ d'', d'.put got = some d'' ∧
        ∀ t, d''.count t = sampleDepot.count t :=
  c2_depot_take_put_roundtrip sampleDepot [("A", 1), ("B", 1)]
    sampleDepot_wf (by decide) (by decide)

/-! ## Worker agent: configuration, capability, reconstruction
(`src/morota/sim/agent/worker_agent.py`, `src/morota/config_loader.py`) -/

/-- `RobotTypeSpec` from the scenario configuration. -/
structure RobotTypeSpec where
  requiredModules : List (String × Nat)
  speed : ℝ
  throughput : ℝ

/-- The slice of the scenario configuration the worker agent reads. -/
structure SimCfg where
  robotTypes : List (String × RobotTypeSpec)
  typePriority : List (String × Int)
  reconstructDuration : ℝ
  timeStep : ℝ

def specOf (cfg : SimCfg) (name : String) : RobotTypeSpec :=
  alistGetD cfg.robotTypes name ⟨[], 0, 0⟩

/-- Per-type module count (`counts.get(t, 0)` over a worker's modules). -/
def countType (modules : List Module) (t : String) : Nat :=
  (modules.filter (fun m => m.type == t)).length

/-- `sorted(robot_types.keys(), key=lambda n: type_priority.get(n, 10**9))`,
a stable ascending sort. -/
def sortedTypes (cfg : SimCfg) : List String :=
  stableSort
    (fun a b => alistGetD cfg.typePriority a (10 ^ 9) ≤
      alistGetD cfg.typePriority b (10 ^ 9))
    (cfg.robotTypes.map Prod.fst)

/-- `infer_robot_type_from_modules`: the first (highest-priority) robot type
whose per-type requirements are all met by the module counts. -/
def inferRobotTypeFromModules (cfg : SimCfg) (modules : List Module) :
    Option String :=
  (sortedTypes cfg).find? fun rt =>
    (specOf cfg rt).requiredModules.all fun p => p.2 ≤ countType modules p.1

inductive WMode
  | idle
  | work
  | goReconstruction
  | reconstruction
  | retire
deriving DecidableEq

/-- The fields of `WorkerAgent`. -/
structure Worker where
  workerId : Nat
  modules : List Module
  declaredType : Option String
  robotType : Option String
  speed : ℝ
  throughput : ℝ
  totalMoveDistance : ℝ
  pos : ℝ × ℝ
  mode : WMode
  durationLeft : ℝ
  reconfDeficits : List (String × Nat)
  reconfExcess : List Module

/-- `WorkerAgent._refresh_capability_from_modules`. -/
def refreshCapability (cfg : SimCfg) (w : Worker) : Worker :=
  match inferRobotTypeFromModules cfg w.modules with
  | none => { w with robotType := none, speed := 0, throughput := 0 }
  | some rt =>
    { w with robotType := some rt, speed := (specOf cfg rt).speed,
             throughput := (specOf cfg rt).throughput }

/-- First-occurrence order of the distinct module types of a list
(insertion order of `Counter(m.type for m in modules)`). -/
def dedupTypes (ms : List Module) : List String :=
  ms.foldl (fun acc m => if m.type ∈ acc then acc else acc ++ [m.type]) []

/-- `WorkerAgent._plan_reconstruction`: compute the deficit map against the
declared type's requirement, and the excess modules (per type, the modules
beyond the requirement; the source sorts the candidates by fatigue `H`
descending before taking the surplus — that sort is passed in as `hSort`,
and no claim below depends on the order it produces).  `none` models the
`KeyError` raised on an unknown declared type. -/
def planReconstruction (cfg : SimCfg) (hSort : List Module → List Module)
    (w : Worker) : Option Worker :=
  match w.declaredType with
  | none => none
  | some dt =>
    if dt ∈ cfg.robotTypes.map Prod.fst then
      let spec := specOf cfg dt
      let healthy := w.modules.filter (fun m => m.state != MState.failed)
      let deficits := spec.requiredModules.foldl (fun acc p =>
        if countType healthy p.1 < p.2 then
          acc ++ [(p.1, p.2 - countType healthy p.1)]
        else acc) []
      let excess := (dedupTypes healthy).foldl (fun acc t =>
        let need := alistGetD spec.requiredModules t 0
        if countType healthy t ≤ need then acc
        else
          acc ++ (hSort (w.modules.filter
            (fun m => m.type == t && m.state != MState.failed))).take
            (countType healthy t - need)) []
      some { w with reconfDeficits := deficits, reconfExcess := excess }
    else none

/-- Step (1) of the completion block of `WorkerAgent._reconstruction`:
remove the planned excess modules from the worker and `put` them to the
depot.  `none` models the duplicate-id `RuntimeError` in `put`. -/
def reconstructionReturnExcess (w3 : Worker) (depot : Depot) :
    Option (Worker × Depot) :=
  if w3.reconfExcess.isEmpty then some (w3, depot)
  else
    let outIds := w3.reconfExcess.map Module.id
    let toPut := w3.modules.filter (fun m => outIds.contains m.id)
    let kept := w3.modules.filter (fun m => !(outIds.contains m.id))
    let w4 := { w3 with modules := kept, reconfExcess := [] }
    if toPut.isEmpty then some (w4, depot)
    else
      match depot.put toPut with
      | none => none
      | some dp => some (w4, dp)

/-- Step (2) of the completion block of `WorkerAgent._reconstruction`:
`take` the deficit map from the depot — all-or-nothing; when `take`
returns `None`, take nothing ("無ければ無いで良い"). -/
def reconstructionTakeDeficits (w5 : Worker) (depot1 : Depot) :
    Worker × Depot :=
  if w5.reconfDeficits.isEmpty then (w5, depot1)
  else
    match depot1.take w5.reconfDeficits with
    | none => ({ w5 with reconfDeficits := [] }, depot1)
    | some (got, dp) =>
      let owned := w5.modules.map Module.id
      let add := got.filter (fun m => !(owned.contains m.id))
      ({ w5 with modules := w5.modules ++ add, reconfDeficits := [] }, dp)

/-- The completion block of `WorkerAgent._reconstruction` (the code run
once `duration_left` reaches zero, with `mode` already set to `idle`):
return the excess, take the deficits, refresh capability. -/
def reconstructionComplete (cfg : SimCfg) (w3 : Worker) (depot : Depot) :
    Option (Worker × Depot) :=
  match reconstructionReturnExcess w3 depot with
  | none => none
  | some (w5, depot1) =>
    let res := reconstructionTakeDeficits w5 depot1
    some (refreshCapability cfg res.1, res.2)

/-- `WorkerAgent._reconstruction(dt)`: on entry with no time left, plan and
arm the countdown; consume `dt`; when the countdown reaches zero, run the
completion block (`reconstructionComplete`) and return the leftover `dt`.
`none` models the exceptions (`KeyError` on an unknown declared type,
duplicate-id `RuntimeError` in `put`). -/
noncomputable def reconstruction (cfg : SimCfg)
    (hSort : List Module → List Module) (w : Worker) (depot : Depot)
    (dt : ℝ) : Option (Worker × Depot × ℝ) :=
  let start : Option Worker :=
    if w.durationLeft ≤ 0 then
      match planReconstruction cfg hSort w with
      | none => none
      | some w' => some { w' with durationLeft := cfg.reconstructDuration }
    else some w
  match start with
  | none => none
  | some w1 =>
    let used := min dt w1.durationLeft
    let w2 := { w1 with durationLeft := w1.durationLeft - used }
    let remainingDt := dt - used
    if 0 < w2.durationLeft then some (w2, depot, 0)
    else
      match reconstructionComplete cfg
          { w2 with durationLeft := 0, mode := WMode.idle } depot with
      | none => none
      | some (w', depot') => some (w', depot', remainingDt)

theorem refreshCapability_fields (cfg : SimCfg) (w : Worker) :
    (refreshCapability cfg w).modules = w.modules ∧
    (refreshCapability cfg w).mode = w.mode ∧
    (refreshCapability cfg w).reconfDeficits = w.reconfDeficits := by
  rw [refreshCapability]
  cases inferRobotTypeFromModules cfg w.modules <;> exact ⟨rfl, rfl, rfl⟩

/-- Specification of step (1) of the completion block: the excess modules
are removed from the worker and returned to the depot, whose per-type
counts grow accordingly. -/
theorem returnExcess_spec (w3 : Worker) (depot : Depot) (hwf : depot.WF)
    (hdisj : ∀ m ∈ w3.modules, m.id ∉ depot.ids)
    (hwnodup : (w3.modules.map Module.id).Nodup)
    (hexh : ∀ m ∈ w3.reconfExcess, m.state ≠ MState.failed)
    (hexsub : ∀ m ∈ w3.reconfExcess, m ∈ w3.modules) :
    ∃ (w5 : Worker) (d₁ : Depot),
      reconstructionReturnExcess w3 depot = some (w5, d₁) ∧
      w5.modules = w3.modules.filter
        (fun m => !((w3.reconfExcess.map Module.id).contains m.id)) ∧
      w5.mode = w3.mode ∧
      w5.reconfDeficits = w3.reconfDeficits ∧
      d₁.WF ∧
      (∀ t, d₁.count t = depot.count t + countType (w3.modules.filter
        (fun m => (w3.reconfExcess.map Module.id).contains m.id)) t) ∧
      (∀ i, i ∈ d₁.ids ↔ i ∈ depot.ids ∨
        i ∈ (w3.modules.filter
          (fun m => (w3.reconfExcess.map Module.id).contains m.id)).map
          Module.id) := by
  classical
  by_cases hex : w3.reconfExcess.isEmpty
  · have hout : w3.reconfExcess.map Module.id = [] := by
      rw [List.isEmpty_iff] at hex
      rw [hex]
      rfl
    refine ⟨w3, depot, ?_, ?_, rfl, rfl, hwf, ?_, ?_⟩
    · rw [reconstructionReturnExcess, if_pos hex]
    · rw [hout]
      exact (List.filter_eq_self.mpr fun m _ => by simp).symm
    · intro t
      rw [hout]
      have : w3.modules.filter (fun m => ([] : List Int).contains m.id)
          = [] := List.filter_eq_nil_iff.mpr fun m _ => by simp
      rw [this]
      simp [countType]
    · intro i
      rw [hout]
      have : w3.modules.filter (fun m => ([] : List Int).contains m.id)
          = [] := List.filter_eq_nil_iff.mpr fun m _ => by simp
      rw [this]
      simp
  · have htoPut_sub : ∀ m ∈ w3.modules.filter
        (fun m => (w3.reconfExcess.map Module.id).contains m.id),
        m ∈ w3.modules := fun m hm => List.mem_of_mem_filter hm
    have htoPut_nodup : ((w3.modules.filter
        (fun m => (w3.reconfExcess.map Module.id).contains m.id)).map
          Module.id).Nodup :=
      ((List.filter_sublist _).map Module.id).nodup hwnodup
    have htoPut_healthy : ∀ m ∈ w3.modules.filter
        (fun m => (w3.reconfExcess.map Module.id).contains m.id),
        m.state ≠ MState.failed := by
      intro m hm
      have hmem := List.mem_of_mem_filter hm
      have hcond := List.of_mem_filter hm
      have hcond' : m.id ∈ w3.reconfExcess.map Module.id := by
        simpa using hcond
      rcases List.mem_map.mp hcond' with ⟨e, he, heid⟩
      have heq : e = m :=
        List.inj_on_of_nodup_map hwnodup (hexsub e he) hmem heid
      rw [← heq]
      exact hexh e he
    by_cases htp : (w3.modules.filter
        (fun m => (w3.reconfExcess.map Module.id).contains m.id)).isEmpty
    · rw [List.isEmpty_iff] at htp
      refine ⟨{ w3 with
          modules := w3.modules.filter
            (fun m => !((w3.reconfExcess.map Module.id).contains m.id)),
          reconfExcess := [] }, depot, ?_, rfl, rfl, rfl, hwf, ?_, ?_⟩
      · rw [reconstructionReturnExcess, if_neg hex]
        simp only []
        rw [if_pos (by rw [List.isEmpty_iff]; exact htp)]
      · intro t
        rw [htp]
        simp [countType]
      · intro i
        rw [htp]
        simp
    · obtain ⟨d₁, hput, hwf₁, hcnt₁, hids₁⟩ := put_spec
        (w3.modules.filter
          (fun m => (w3.reconfExcess.map Module.id).contains m.id))
        depot hwf (fun m hm _ => hdisj m (htoPut_sub m hm)) htoPut_nodup
      refine ⟨{ w3 with
          modules := w3.modules.filter
            (fun m => !((w3.reconfExcess.map Module.id).contains m.id)),
          reconfExcess := [] }, d₁, ?_, rfl, rfl, rfl, hwf₁, ?_, ?_⟩
      · rw [reconstructionReturnExcess, if_neg hex]
        simp only []
        rw [if_neg htp, hput]
      · intro t
        rw [hcnt₁ t]
        congr 1
        rw [countType]
        apply congrArg List.length
        apply List.filter_congr
        intro m hm
        simp [htoPut_healthy m hm]
      · intro i
        rw [hids₁ i]
        congr! 2
        apply congrArg (List.map Module.id)
        apply List.filter_eq_self.mpr
        intro m hm
        simp [htoPut_healthy m hm]

/-- Specification of step (2) of the completion block: the deficit map is
taken all-or-nothing — if the depot cannot cover the whole map the worker
receives nothing; if it can, the worker gains exactly the deficit counts. -/
theorem takeDeficits_spec (w5 : Worker) (d₁ : Depot) (hwf₁ : d₁.WF)
    (hkeys : (w5.reconfDeficits.map Prod.fst).Nodup)
    (howned : ∀ m ∈ w5.modules, m.id ∉ d₁.ids) :
    (reconstructionTakeDeficits w5 d₁).1.mode = w5.mode ∧
    (d₁.canCover w5.reconfDeficits = false →
      (reconstructionTakeDeficits w5 d₁).1.modules = w5.modules ∧
      ∀ t, (reconstructionTakeDeficits w5 d₁).2.count t = d₁.count t) ∧
    (d₁.canCover w5.reconfDeficits = true →
      (∀ p ∈ w5.reconfDeficits,
        countType (reconstructionTakeDeficits w5 d₁).1.modules p.1 =
          countType w5.modules p.1 + p.2 ∧
        (reconstructionTakeDeficits w5 d₁).2.count p.1 =
          d₁.count p.1 - p.2) ∧
      (∀ s, s ∉ w5.reconfDeficits.map Prod.fst →
        countType (reconstructionTakeDeficits w5 d₁).1.modules s =
          countType w5.modules s ∧
        (reconstructionTakeDeficits w5 d₁).2.count s = d₁.count s)) := by
  classical
  by_cases hempty : w5.reconfDeficits.isEmpty
  · have hres : reconstructionTakeDeficits w5 d₁ = (w5, d₁) := by
      rw [reconstructionTakeDeficits, if_pos hempty]
    rw [List.isEmpty_iff] at hempty
    refine ⟨by rw [hres], ?_, ?_⟩
    · intro hcov
      rw [Depot.canCover, hempty] at hcov
      simp at hcov
    · intro _
      rw [hres, hempty]
      exact ⟨fun p hp => absurd hp (by simp), fun s _ => ⟨rfl, rfl⟩⟩
  · by_cases hcov : d₁.canCover w5.reconfDeficits = true
    · have hcov' := (canCover_iff d₁ w5.reconfDeficits).mp hcov
      obtain ⟨new, d₀, heq, hin, hnotin, hperm, hids, hwf'⟩ :=
        takeFold_spec w5.reconfDeficits d₁ [] hwf₁ hkeys hcov'
      have htake : d₁.take w5.reconfDeficits = some (new, d₀) := by
        rw [Depot.take, if_pos hcov, heq]
        simp
      have hadd : new.filter
          (fun m => !((w5.modules.map Module.id).contains m.id)) = new := by
        apply List.filter_eq_self.mpr
        intro m hm
        simp only [Bool.not_eq_eq_eq_not, Bool.not_true, Bool.not_false]
        rw [List.contains_eq_any_beq]
        rw [List.any_eq_false]
        intro i hi
        rcases List.mem_map.mp hi with ⟨k, hk, hkid⟩
        have hmid : m.id ∈ d₁.ids := by
          apply (hwf₁.idsIff m.id).mpr
          apply List.mem_map.mpr
          exact ⟨m, hperm.mem_iff.mpr (List.mem_append.mpr (Or.inl hm)), rfl⟩
        intro hc
        rw [← hkid] at hc
        have hkm : m.id = k.id := by simpa using hc
        exact howned k hk (hkm ▸ hmid)
      have hres : reconstructionTakeDeficits w5 d₁ =
          ({ w5 with modules := w5.modules ++ new, reconfDeficits := [] },
            d₀) := by
        rw [reconstructionTakeDeficits, if_neg hempty, htake]
        simp only [hadd]
      refine ⟨by rw [hres], fun hc => absurd hcov (by rw [hc]; simp), ?_⟩
      intro _
      constructor
      · intro p hp
        obtain ⟨hflen, hcnt⟩ := hin p hp
        refine ⟨?_, by rw [hres]; exact hcnt⟩
        rw [hres]
        show countType (w5.modules ++ new) p.1 = _
        rw [countType, List.filter_append, List.length_append, hflen]
        rfl
      · intro s hs
        obtain ⟨hc1, hc2⟩ := hnotin s hs
        refine ⟨?_, by rw [hres]; exact hc1⟩
        rw [hres]
        show countType (w5.modules ++ new) s = _
        rw [countType, List.filter_append, List.length_append, hc2]
        rfl
    · have hcov' : d₁.canCover w5.reconfDeficits = false := by
        simpa using hcov
      have htake : d₁.take w5.reconfDeficits = none := by
        rw [Depot.take, if_neg (by rw [hcov']; simp)]
      have hres : reconstructionTakeDeficits w5 d₁ =
          ({ w5 with reconfDeficits := [] }, d₁) := by
        rw [reconstructionTakeDeficits, if_neg hempty, htake]
      exact ⟨by rw [hres], fun _ => ⟨by rw [hres], fun t => by rw [hres]⟩,
        fun hc => absurd hc (by rw [hcov']; simp)⟩

/-- Specification of the whole completion block: the excess is returned to
the depot first, then the deficit map is taken all-or-nothing; on partial
coverage the worker receives no modules at all. -/
theorem reconstructionComplete_spec (cfg : SimCfg) (w3 : Worker)
    (depot : Depot) (hwf : depot.WF)
    (hdisj : ∀ m ∈ w3.modules, m.id ∉ depot.ids)
    (hwnodup : (w3.modules.map Module.id).Nodup)
    (hexh : ∀ m ∈ w3.reconfExcess, m.state ≠ MState.failed)
    (hexsub : ∀ m ∈ w3.reconfExcess, m ∈ w3.modules)
    (hdefkeys : (w3.reconfDeficits.map Prod.fst).Nodup) :
    ∃ (w' : Worker) (depot' d₁ : Depot),
      reconstructionComplete cfg w3 depot = some (w', depot') ∧
      w'.mode = w3.mode ∧
      (∀ t, d₁.count t = depot.count t + countType (w3.modules.filter
        (fun m => (w3.reconfExcess.map Module.id).contains m.id)) t) ∧
      (d₁.canCover w3.reconfDeficits = false →
        w'.modules = w3.modules.filter
          (fun m => !((w3.reconfExcess.map Module.id).contains m.id)) ∧
        ∀ t, depot'.count t = d₁.count t) ∧
      (d₁.canCover w3.reconfDeficits = true →
        (∀ p ∈ w3.reconfDeficits,
          countType w'.modules p.1 = countType (w3.modules.filter
            (fun m => !((w3.reconfExcess.map Module.id).contains m.id))) p.1
            + p.2 ∧
          depot'.count p.1 = d₁.count p.1 - p.2) ∧
        (∀ s, s ∉ w3.reconfDeficits.map Prod.fst →
          countType w'.modules s = countType (w3.modules.filter
            (fun m => !((w3.reconfExcess.map Module.id).contains m.id))) s ∧
          depot'.count s = d₁.count s)) := by
  classical
  obtain ⟨w5, d₁, heq1, hw5mods, hw5mode, hw5defs, hwf₁, hcnt₁, hids₁⟩ :=
    returnExcess_spec w3 depot hwf hdisj hwnodup hexh hexsub
  have hkept_ids : ∀ m ∈ w5.modules, m.id ∉ d₁.ids := by
    intro m hm hc
    rw [hw5mods] at hm
    rcases (hids₁ m.id).mp hc with h | h
    · exact hdisj m (List.mem_of_mem_filter hm) h
    · rcases List.mem_map.mp h with ⟨e, he, heid⟩
      have hcondm := List.of_mem_filter hm
      have hconde := List.of_mem_filter he
      rw [heid] at hconde
      simp only [Bool.not_eq_eq_eq_not, Bool.not_true] at hcondm
      rw [hconde] at hcondm
      exact absurd hcondm (by simp)
  obtain ⟨hmode2, hnocov, hcov⟩ := takeDeficits_spec w5 d₁ hwf₁
    (hw5defs ▸ hdefkeys) hkept_ids
  obtain ⟨hrmods, hrmode, _⟩ :=
    refreshCapability_fields cfg (reconstructionTakeDeficits w5 d₁).1
  refine ⟨refreshCapability cfg (reconstructionTakeDeficits w5 d₁).1,
    (reconstructionTakeDeficits w5 d₁).2, d₁, ?_, ?_, hcnt₁, ?_, ?_⟩
  · rw [reconstructionComplete, heq1]
  · rw [hrmode, hmode2, hw5mode]
  · intro hc
    rw [hw5defs] at hnocov
    obtain ⟨h1, h2⟩ := hnocov hc
    exact ⟨by rw [hrmods, h1, hw5mods], h2⟩
  · intro hc
    rw [hw5defs] at hcov
    obtain ⟨h1, h2⟩ := hcov hc
    refine ⟨fun p hp => ?_, fun s hs => ?_⟩
    · obtain ⟨ha, hb⟩ := h1 p hp
      exact ⟨by rw [hrmods, ha, hw5mods], hb⟩
    · obtain ⟨ha, hb⟩ := h2 s hs
      exact ⟨by rw [hrmods, ha, hw5mods], hb⟩

theorem deficits_keys_sublist (l : List (String × Nat))
    (healthy : List Module) (acc : List (String × Nat)) :
    ((l.foldl (fun acc p =>
        if countType healthy p.1 < p.2 then
          acc ++ [(p.1, p.2 - countType healthy p.1)]
        else acc) acc).map Prod.fst).Sublist
      ((acc.map Prod.fst) ++ (l.map Prod.fst)) := by
  induction l generalizing acc with
  | nil => simp
  | cons p rest ih =>
    rw [List.foldl_cons]
    by_cases hc : countType healthy p.1 < p.2
    · rw [if_pos hc]
      refine (ih (acc ++ [(p.1, p.2 - countType healthy p.1)])).trans ?_
      rw [List.map_append, List.map_cons]
      simp
    · rw [if_neg hc]
      refine (ih acc).trans ?_
      rw [List.map_cons]
      refine List.Sublist.append_left ?_ _
      exact (List.sublist_cons_self _ _)

theorem mem_excess_fold (types : List String) (healthy : List Module)
    (g : String → List Module) (P : String → Prop) [DecidablePred P]
    (acc : List Module) :
    ∀ x ∈ types.foldl (fun acc t => if P t then acc else acc ++ g t) acc,
      x ∈ acc ∨ ∃ t ∈ types, x ∈ g t := by
  induction types generalizing acc with
  | nil => intro x hx; exact Or.inl hx
  | cons t rest ih =>
    intro x hx
    rw [List.foldl_cons] at hx
    by_cases hP : P t
    · rw [if_pos hP] at hx
      rcases ih acc x hx with h | ⟨u, hu, hxu⟩
      · exact Or.inl h
      · exact Or.inr ⟨u, List.mem_cons_of_mem _ hu, hxu⟩
    · rw [if_neg hP] at hx
      rcases ih (acc ++ g t) x hx with h | ⟨u, hu, hxu⟩
      · rcases List.mem_append.mp h with h' | h'
        · exact Or.inl h'
        · exact Or.inr ⟨t, List.mem_cons_self _ _, h'⟩
      · exact Or.inr ⟨u, List.mem_cons_of_mem _ hu, hxu⟩

/-- Specification of `WorkerAgent._plan_reconstruction`: with a known
declared type, planning succeeds, leaves every other worker field alone,
selects only healthy modules of the worker as excess, and produces a
deficit map with distinct keys. -/
theorem planReconstruction_spec (cfg : SimCfg)
    (hSort : List Module → List Module)
    (hSortPerm : ∀ l, List.Perm (hSort l) l) (w : Worker) (n : String)
    (hdecl : w.declaredType = some n)
    (hknown : n ∈ cfg.robotTypes.map Prod.fst)
    (hreqkeys : ((specOf cfg n).requiredModules.map Prod.fst).Nodup) :
    ∃ wp, planReconstruction cfg hSort w = some wp ∧
      wp.modules = w.modules ∧ wp.mode = w.mode ∧
      wp.declaredType = w.declaredType ∧
      wp.durationLeft = w.durationLeft ∧
      (∀ m ∈ wp.reconfExcess, m.state ≠ MState.failed ∧ m ∈ w.modules) ∧
      (wp.reconfDeficits.map Prod.fst).Nodup := by
  classical
  have heq : planReconstruction cfg hSort w = some
      { w with
        reconfDeficits := (specOf cfg n).requiredModules.foldl (fun acc p =>
          if countType (w.modules.filter
              (fun m => m.state != MState.failed)) p.1 < p.2 then
            acc ++ [(p.1, p.2 - countType (w.modules.filter
              (fun m => m.state != MState.failed)) p.1)]
          else acc) [],
        reconfExcess := (dedupTypes (w.modules.filter
            (fun m => m.state != MState.failed))).foldl (fun acc t =>
          if countType (w.modules.filter
              (fun m => m.state != MState.failed)) t ≤
              alistGetD (specOf cfg n).requiredModules t 0 then acc
          else acc ++ (hSort (w.modules.filter
            (fun m => m.type == t && m.state != MState.failed))).take
            (countType (w.modules.filter
              (fun m => m.state != MState.failed)) t -
              alistGetD (specOf cfg n).requiredModules t 0)) [] } := by
    rw [planReconstruction, hdecl]
    simp only [if_pos hknown]
  refine ⟨_, heq, rfl, rfl, rfl, rfl, ?_, ?_⟩
  · intro m hm
    have := mem_excess_fold (dedupTypes
        (w.modules.filter (fun m => m.state != MState.failed)))
      (w.modules.filter (fun m => m.state != MState.failed))
      (fun t => (hSort (w.modules.filter
        (fun m => m.type == t && m.state != MState.failed))).take
        (countType (w.modules.filter (fun m => m.state != MState.failed)) t -
          alistGetD (specOf cfg n).requiredModules t 0))
      (fun t => countType (w.modules.filter
        (fun m => m.state != MState.failed)) t ≤
        alistGetD (specOf cfg n).requiredModules t 0) [] m hm
    rcases this with h | ⟨t, _, hmt⟩
    · simp at h
    · have hmem := List.mem_of_mem_take hmt
      have hmem' := (hSortPerm _).mem_iff.mp hmem
      have hcond := List.of_mem_filter hmem'
      rw [Bool.and_eq_true] at hcond
      refine ⟨by simpa using hcond.2, List.mem_of_mem_filter hmem'⟩
  · have hsub := deficits_keys_sublist (specOf cfg n).requiredModules
      (w.modules.filter (fun m => m.state != MState.failed)) []
    rw [List.map_nil, List.nil_append] at hsub
    exact hsub.nodup hreqkeys

/-- The corrected behaviour of claim C1, proved on the full
`_reconstruction(dt)` path.  When a worker completes its reconstruction
phase (fresh entry with `dt` covering the whole `reconstruct_duration`):
it plans, returns its excess to the depot (the depot counts grow by the
returned modules), then attempts to take its deficit map *atomically*: if
the depot after the return cannot cover the full deficit map the worker
receives no modules at all ("take atomically or nothing", not "take what
you can"), otherwise it receives exactly the deficit counts; and it
transitions to `idle`. -/
theorem c1_reconstruction_completion_atomic (cfg : SimCfg)
    (hSort : List Module → List Module) (w : Worker) (depot : Depot)
    (dt : ℝ) (n : String)
    (hSortPerm : ∀ l, List.Perm (hSort l) l)
    (hdur : w.durationLeft ≤ 0) (hdt : cfg.reconstructDuration ≤ dt)
    (hdecl : w.declaredType = some n)
    (hknown : n ∈ cfg.robotTypes.map Prod.fst)
    (hreqkeys : ((specOf cfg n).requiredModules.map Prod.fst).Nodup)
    (hwf : depot.WF)
    (hdisj : ∀ m ∈ w.modules, m.id ∉ depot.ids)
    (hwnodup : (w.modules.map Module.id).Nodup) :
    ∃ (wp : Worker) (w' : Worker) (depot' d₁ : Depot),
      planReconstruction cfg hSort w = some wp ∧
      reconstruction cfg hSort w depot dt =
        some (w', depot', dt - cfg.reconstructDuration) ∧
      w'.mode = WMode.idle ∧
      (∀ t, d₁.count t = depot.count t + countType (w.modules.filter
        (fun m => (wp.reconfExcess.map Module.id).contains m.id)) t) ∧
      (d₁.canCover wp.reconfDeficits = false →
        w'.modules = w.modules.filter
          (fun m => !((wp.reconfExcess.map Module.id).contains m.id)) ∧
        ∀ t, depot'.count t = d₁.count t) ∧
      (d₁.canCover wp.reconfDeficits = true →
        (∀ p ∈ wp.reconfDeficits,
          countType w'.modules p.1 = countType (w.modules.filter
            (fun m => !((wp.reconfExcess.map Module.id).contains m.id))) p.1
            + p.2 ∧
          depot'.count p.1 = d₁.count p.1 - p.2) ∧
        (∀ s, s ∉ wp.reconfDeficits.map Prod.fst →
          countType w'.modules s = countType (w.modules.filter
            (fun m => !((wp.reconfExcess.map Module.id).contains m.id))) s ∧
          depot'.count s = d₁.count s)) := by
  classical
  obtain ⟨wp, hplan, hpm, hpmode, hpdecl, hpdur, hpex, hpdef⟩ :=
    planReconstruction_spec cfg hSort hSortPerm w n hdecl hknown hreqkeys
  set w3 : Worker :=
    { { { wp with durationLeft := cfg.reconstructDuration } with
        durationLeft := cfg.reconstructDuration -
          min dt cfg.reconstructDuration } with
      durationLeft := 0, mode := WMode.idle } with hw3
  have hw3mods : w3.modules = w.modules := hpm
  have hw3ex : w3.reconfExcess = wp.reconfExcess := rfl
  have hw3def : w3.reconfDeficits = wp.reconfDeficits := rfl
  obtain ⟨w', depot', d₁, hcompl, hmode, hcnt, hnocov, hcov⟩ :=
    reconstructionComplete_spec cfg w3 depot hwf
      (by rw [hw3mods]; exact hdisj) (by rw [hw3mods]; exact hwnodup)
      (by rw [hw3ex]; exact fun m hm => (hpex m hm).1)
      (by rw [hw3ex, hw3mods]; exact fun m hm => (hpex m hm).2)
      (by rw [hw3def]; exact hpdef)
  have hreq : reconstruction cfg hSort w depot dt =
      some (w', depot', dt - cfg.reconstructDuration) := by
    rw [reconstruction]
    simp only [if_pos hdur, hplan]
    have hmin : min dt ({ wp with
        durationLeft := cfg.reconstructDuration } : Worker).durationLeft =
        cfg.reconstructDuration := min_eq_right hdt
    simp only [hmin]
    rw [if_neg (by simp)]
    rw [hcompl]
  refine ⟨wp, w', depot', d₁, hplan, hreq, by rw [hmode], ?_, ?_, ?_⟩
  · intro t
    have := hcnt t
    rw [hw3mods, hw3ex] at this
    exact this
  · intro hc
    rw [hw3def] at hnocov
    obtain ⟨h1, h2⟩ := hnocov hc
    rw [hw3mods, hw3ex] at h1
    exact ⟨h1, h2⟩
  · intro hc
    rw [hw3def] at hcov
    obtain ⟨h1, h2⟩ := hcov hc
    constructor
    · intro p hp
      obtain ⟨ha, hb⟩ := h1 p hp
      rw [hw3mods, hw3ex] at ha
      exact ⟨ha, hb⟩
    · intro s hs
      obtain ⟨ha, hb⟩ := h2 s hs
      rw [hw3mods, hw3ex] at ha
      exact ⟨ha, hb⟩

/-- Concrete configuration for the C1 scenario: one robot type `A`
requiring one `Body` and one `Wheel`; `reconstruct_duration = 1`. -/
def cfgC1 : SimCfg :=
  ⟨[("A", ⟨[("Body", 1), ("Wheel", 1)], 1, 1⟩)], [("A", 0)], 1, 1⟩

/-- A worker entering its reconstruction phase with no modules, declared
type `A`. -/
def workerC1 : Worker :=
  ⟨0, [], some "A", none, 0, 0, 0, (0, 0), WMode.reconstruction, 0, [], []⟩

/-- The same worker at the completion point, with the planned deficit map
`{Body: 1, Wheel: 1}` (what `_plan_reconstruction` computes for it). -/
def workerC1' : Worker :=
  ⟨0, [], some "A", none, 0, 0, 0, (0, 0), WMode.idle, 0,
    [("Body", 1), ("Wheel", 1)], []⟩

/-- A depot holding a single `Body` module: it can cover the `Body` part of
the deficit map but not the whole map. -/
def depotC1 : Depot := ⟨[("Body", [sampleModule 10 "Body"])], [10]⟩

/-- Counterexample to C1 as stated: the deficit map `{Body: 1, Wheel: 1}`
is only partially coverable (`Body` is available), yet on reconstruction
completion the worker receives *no* modules at all — `take` is atomic and
the worker keeps nothing on partial coverage, so the claim's "the worker
still receives the available modules of the covered types" is false. -/
theorem c1_counterexample :
    depotC1.canCover [("Body", 1)] = true ∧
    depotC1.canCover workerC1'.reconfDeficits = false ∧
    (reconstructionComplete cfgC1 workerC1' depotC1).map
      (fun p => (countType p.1.modules "Body", p.2.count "Body",
        p.1.mode)) = some (0, 1, WMode.idle) := by
  decide

theorem depotC1_wf : depotC1.WF := by
  refine ⟨by decide, by decide, by decide, by decide, fun i => Iff.rfl⟩

/-- Witness for the corrected C1 theorem at the concrete scenario
(`cfgC1`, `workerC1`, `depotC1`, `dt = 1`). -/
theorem c1_reconstruction_completion_atomic_witness :
    ∃ (wp : Worker) (w' : Worker) (depot' d₁ : Depot),
      planReconstruction cfgC1 id workerC1 = some wp ∧
      reconstruction cfgC1 id workerC1 depotC1 1 =
        some (w', depot', 1 - cfgC1.reconstructDuration) ∧
      w'.mode = WMode.idle ∧
      (∀ t, d₁.count t = depotC1.count t + countType (workerC1.modules.filter
        (fun m => (wp.reconfExcess.map Module.id).contains m.id)) t) ∧
      (d₁.canCover wp.reconfDeficits = false →
        w'.modules = workerC1.modules.filter
          (fun m => !((wp.reconfExcess.map Module.id).contains m.id)) ∧
        ∀ t, depot'.count t = d₁.count t) ∧
      (d₁.canCover wp.reconfDeficits = true →
        (∀ p ∈ wp.reconfDeficits,
          countType w'.modules p.1 = countType (workerC1.modules.filter
            (fun m => !((wp.reconfExcess.map Module.id).contains m.id))) p.1
            + p.2 ∧
          depot'.count p.1 = d₁.count p.1 - p.2) ∧
        (∀ s, s ∉ wp.reconfDeficits.map Prod.fst →
          countType w'.modules s = countType (workerC1.modules.filter
            (fun m => !((wp.reconfExcess.map Module.id).contains m.id))) s ∧
          depot'.count s = d₁.count s)) :=
  c1_reconstruction_completion_atomic cfgC1 id workerC1 depotC1 1 "A"
    (fun l => List.Perm.refl l)
    (by norm_num [workerC1])
    (by norm_num [cfgC1])
    rfl (by decide) (by decide) depotC1_wf
    (by intro m hm; simp [workerC1] at hm)
    (by simp [workerC1])

/-! ## Worker motion and step
(`src/morota/sim/agent/worker_agent.py`, `WorkerAgent._move_towards`,
`WorkerAgent.step`) -/

/-- `math.hypot`. -/
noncomputable def hypot (dx dy : ℝ) : ℝ := Real.sqrt (dx ^ 2 + dy ^ 2)

/-- `WorkerAgent._accumulate_module_fatigue`. -/
noncomputable def accumulateModuleFatigue (rates : List (String × ℝ))
    (time : ℝ) (ms : List Module) : List Module :=
  if time ≤ 0 then ms
  else ms.map fun m =>
    { m with H := m.H + alistGetD rates m.type 0 * time,
             deltaH := m.deltaH + alistGetD rates m.type 0 * time }

/-- `WorkerAgent._move_towards(target_pos, dt)`: returns the updated worker
and the triple `(arrived, time_used, dt_remaining)`. -/
noncomputable def moveTowards (fmMove : List (String × ℝ)) (w : Worker)
    (target : ℝ × ℝ) (dt : ℝ) : Worker × Bool × ℝ × ℝ :=
  let dx := target.1 - w.pos.1
  let dy := target.2 - w.pos.2
  let dist := hypot dx dy
  if dist < 1e-8 then (w, true, 0, dt)
  else
    let maxStepDist := w.speed * dt
    if dist ≤ maxStepDist then
      let moveTime := if 0 < w.speed then dist / w.speed else 0
      let remainingDt := max (dt - moveTime) 0
      ({ w with
          pos := target,
          totalMoveDistance := w.totalMoveDistance + dist,
          modules := accumulateModuleFatigue fmMove moveTime w.modules },
        true, moveTime, remainingDt)
    else if w.speed ≤ 0 then (w, false, 0, dt)
    else
      ({ w with
          pos := (w.pos.1 + dx * (maxStepDist / dist),
                  w.pos.2 + dy * (maxStepDist / dist)),
          totalMoveDistance := w.totalMoveDistance + maxStepDist,
          modules := accumulateModuleFatigue fmMove dt w.modules },
        false, dt, 0)

/-- `WorkerAgent._update_failure`: module `i` fails when the `i`-th uniform
draw `u i` is below `failure_prob_step(H, ΔH)`; failed modules are
removed. -/
noncomputable def updateFailure (l k : ℝ) (u : Nat → ℝ)
    (ms : List Module) : List Module :=
  (ms.enum.filter fun p =>
    ¬ (u p.1 < failure_prob_step l k p.2.H p.2.deltaH)).map Prod.snd

/-- `WorkerAgent._reset_module_deltaH`. -/
def resetModuleDeltaH (ms : List Module) : List Module :=
  ms.map fun m => { m with deltaH := 0 }

/-- The slice of a task the worker reads in `_step_work`. -/
structure TaskRef where
  pos : ℝ × ℝ
  status : TStatus

/-- `WorkerAgent._move_to_depot(dt)`. -/
noncomputable def moveToDepot (fmMove : List (String × ℝ))
    (depotPos : ℝ × ℝ) (w : Worker) (dt : ℝ) : Worker × ℝ :=
  let r := moveTowards fmMove w depotPos dt
  let w' := r.1
  if r.2.1 = false then (w', 0)
  else ({ w' with mode := WMode.reconstruction }, r.2.2.2)

/-- `WorkerAgent._step_work(dt)`: move to the target task, and if arrived
with time to spare add `throughput · dt_remaining` to the task (guarded by
the task not being done) and accrue work fatigue; returns the updated
worker and the work amount passed to `add_work` (0 if none). -/
noncomputable def stepWork (fmMove fmWork : List (String × ℝ))
    (w : Worker) (task? : Option TaskRef) (dt : ℝ) : Worker × ℝ :=
  match task? with
  | none => ({ w with mode := WMode.idle }, 0)
  | some task =>
    let r := moveTowards fmMove w task.pos dt
    let w' := r.1
    if r.2.1 = false then (w', 0)
    else if r.2.2.2 ≤ 1e-8 then (w', 0)
    else
      ({ w' with
          modules := accumulateModuleFatigue fmWork r.2.2.2 w'.modules },
        if task.status ≠ TStatus.done then w'.throughput * r.2.2.2 else 0)

/-- `WorkerAgent.step`: refresh capability; hold `idle` (and reset `ΔH`)
when no robot type is resolvable (unless reconstructing); else run the
mode phases, roll failures (skipped during reconstruction), and reset
`ΔH`.  Returns the worker, the depot, and the work contributed to the
target task this step.  `none` models the exceptions reachable through
`_reconstruction`. -/
noncomputable def workerStep (cfg : SimCfg) (l k : ℝ)
    (fmMove fmWork : List (String × ℝ))
    (hSort : List Module → List Module) (u : Nat → ℝ) (allDone : Bool)
    (depotPos : ℝ × ℝ) (w : Worker) (depot : Depot)
    (task? : Option TaskRef) : Option (Worker × Depot × ℝ) :=
  if allDone then some (w, depot, 0)
  else
    let w := refreshCapability cfg w
    if w.robotType = none ∧ w.mode ≠ WMode.reconstruction then
      some ({ w with
          mode := WMode.idle,
          modules := resetModuleDeltaH w.modules }, depot, 0)
    else
      let dt := cfg.timeStep
      let (w, dt) :=
        if w.mode = WMode.goReconstruction then
          moveToDepot fmMove depotPos w dt
        else (w, dt)
      let recon : Option (Worker × Depot × ℝ) :=
        if w.mode = WMode.reconstruction then
          reconstruction cfg hSort w depot dt
        else some (w, depot, dt)
      match recon with
      | none => none
      | some (w, depot, dt) =>
        let (w, work) :=
          if w.mode = WMode.work then stepWork fmMove fmWork w task? dt
          else (w, 0)
        let w :=
          if w.mode ≠ WMode.reconstruction then
            { w with modules := updateFailure l k u w.modules }
          else w
        some ({ w with modules := resetModuleDeltaH w.modules }, depot, work)

/-- The corrected behaviour of claim C8.  (1) If *no robot type at all* is
resolvable from the worker's current modules (`infer` returns `None` — the
test is on the realized type, not the declared one), and the worker is not
reconstructing, then its speed and throughput are zero, it is held `idle`,
and it contributes zero work that step.  (2) Zero speed with distance at
least `1e-8` yields `arrived = false` with no position change.  (3) Any
target closer than `1e-8` is treated as already reached. -/
theorem c8_worker_capability_and_motion (cfg : SimCfg) (l k : ℝ)
    (fmMove fmWork : List (String × ℝ))
    (hSort : List Module → List Module) (u : Nat → ℝ)
    (depotPos target : ℝ × ℝ) (depot : Depot) (task? : Option TaskRef)
    (w : Worker) (dt : ℝ) (hdt : 0 ≤ dt) :
    (inferRobotTypeFromModules cfg w.modules = none →
      w.mode ≠ WMode.reconstruction →
      (refreshCapability cfg w).speed = 0 ∧
      (refreshCapability cfg w).throughput = 0 ∧
      workerStep cfg l k fmMove fmWork hSort u false depotPos w depot
        task? = some ({ refreshCapability cfg w with
          mode := WMode.idle,
          modules := resetModuleDeltaH w.modules }, depot, 0)) ∧
    (w.speed ≤ 0 →
      1e-8 ≤ hypot (target.1 - w.pos.1) (target.2 - w.pos.2) →
      moveTowards fmMove w target dt = (w, false, 0, dt)) ∧
    (hypot (target.1 - w.pos.1) (target.2 - w.pos.2) < 1e-8 →
      moveTowards fmMove w target dt = (w, true, 0, dt)) := by
  classical
  refine ⟨?_, ?_, ?_⟩
  · intro hinf hmode
    have hrc : refreshCapability cfg w =
        { w with robotType := none, speed := 0, throughput := 0 } := by
      rw [refreshCapability, hinf]
    refine ⟨by rw [hrc], by rw [hrc], ?_⟩
    rw [workerStep]
    simp only [Bool.false_eq_true, if_false]
    rw [hrc]
    rw [if_pos ⟨rfl, hmode⟩]
  · intro hspeed hdist
    rw [moveTowards]
    simp only []
    rw [if_neg (not_lt.mpr hdist)]
    have hmax : w.speed * dt ≤ 0 := mul_nonpos_of_nonpos_of_nonneg hspeed hdt
    rw [if_neg (by intro hc; linarith), if_pos hspeed]
  · intro hdist
    rw [moveTowards]
    simp only []
    rw [if_pos hdist]

/-- Configuration for the C8 counterexample: robot type `A` requires a
`Wheel`, robot type `B` requires a `Body`; `A` has higher priority. -/
def cfgC8 : SimCfg :=
  ⟨[("A", ⟨[("Wheel", 1)], 3, 3⟩), ("B", ⟨[("Body", 1)], 2, 2⟩)],
    [("A", 0), ("B", 1)], 1, 1⟩

/-- A worker whose *declared* type `A` is not resolvable from its modules
(one `Body`, no `Wheel`), while type `B` is resolvable. -/
def workerC8 : Worker :=
  ⟨0, [sampleModule 5 "Body"], some "A", none, 0, 0, 0, (0, 0),
    WMode.work, 0, [], []⟩

/-- Counterexample to C8 as stated: this worker's declared type is not
resolvable from its current modules, yet after the step's capability
refresh its speed and throughput are `2` (type `B`'s), not zero, and the
idle-gate of `WorkerAgent.step` (which tests the realized type, not the
declared one) does not fire. -/
theorem c8_counterexample :
    workerC8.declaredType = some "A" ∧
    ((specOf cfgC8 "A").requiredModules.all
      (fun p => p.2 ≤ countType workerC8.modules p.1)) = false ∧
    inferRobotTypeFromModules cfgC8 workerC8.modules = some "B" ∧
    (refreshCapability cfgC8 workerC8).speed = 2 ∧
    (refreshCapability cfgC8 workerC8).throughput = 2 ∧
    (refreshCapability cfgC8 workerC8).robotType ≠ none := by
  have hinf : inferRobotTypeFromModules cfgC8 workerC8.modules =
      some "B" := by decide
  have hrc : refreshCapability cfgC8 workerC8 =
      { workerC8 with
          robotType := some "B",
          speed := (specOf cfgC8 "B").speed,
          throughput := (specOf cfgC8 "B").throughput } := by
    rw [refreshCapability, hinf]
  refine ⟨rfl, by decide, hinf, ?_, ?_, ?_⟩
  · rw [hrc]
    exact rfl
  · rw [hrc]
    exact rfl
  · rw [hrc]
    simp

/-- Witness for the corrected C8 theorem: a worker with no modules (no
type resolvable at all) is idled with zero capability and zero work, and
the concrete motion edge cases at distance `5` with zero speed and at
distance `0`. -/
theorem c8_worker_capability_and_motion_witness :
    (inferRobotTypeFromModules cfgC8 workerC1.modules = none →
      workerC1.mode ≠ WMode.reconstruction →
      (refreshCapability cfgC8 workerC1).speed = 0 ∧
      (refreshCapability cfgC8 workerC1).throughput = 0 ∧
      workerStep cfgC8 1 1 [] [] id (fun _ => 1) false (0, 0) workerC1
        ⟨[], []⟩ none = some ({ refreshCapability cfgC8 workerC1 with
          mode := WMode.idle,
          modules := resetModuleDeltaH workerC1.modules }, ⟨[], []⟩, 0)) ∧
    (workerC1.speed ≤ 0 →
      1e-8 ≤ hypot ((3 : ℝ) - workerC1.pos.1) ((4 : ℝ) - workerC1.pos.2) →
      moveTowards [] workerC1 (3, 4) 1 = (workerC1, false, 0, 1)) ∧
    (hypot ((3 : ℝ) - workerC1.pos.1) ((4 : ℝ) - workerC1.pos.2) < 1e-8 →
      moveTowards [] workerC1 (3, 4) 1 = (workerC1, true, 0, 1)) :=
  c8_worker_capability_and_motion cfgC8 1 1 [] [] id (fun _ => 1)
    (0, 0) (3, 4) ⟨[], []⟩ none workerC1 1 (by norm_num)

/-! ## Task-order GA generational loop
(`src/morota/opt/task_order/ga_core.py`, `SimpleGA.run`)

`SimpleGA` is generic over the injected `evaluate` function; an individual
is embedded as an abstract value of type `I`, and its cached
`objectives[0]` as `f : I → WithTop ℚ` (the `⊤` value embeds the
`float("inf")` objective of an unevaluable plan).  The offspring of each
generation (built by tournament selection, crossover and mutation through
the RNG) are quantified over, so the theorems cover every RNG outcome. -/

/-- `elite_k = max(1, int(self.pop_size * self.elitism_rate))`.  (`int()`
truncates toward zero; for a nonnegative product this is the floor, and
for a negative product both truncation and floor are clamped away by the
`max 1` and the `Int.toNat`.) -/
def eliteK (popSize : Nat) (elitismRate : ℚ) : Nat :=
  max 1 (Int.toNat ⌊elitismRate * popSize⌋)

/-- `sorted(self.population, key=lambda ind: ind.objectives[0])` — a stable
ascending sort. -/
def gaSortByObj (f : I → WithTop ℚ) (pop : List I) : List I :=
  stableSort (fun a b => f a ≤ f b) pop

/-- One generation of `SimpleGA.run`: keep the best `k` individuals
(deep-copied, hence unchanged) and append the offspring. -/
def gaGeneration (f : I → WithTop ℚ) (k : Nat) (pop offspring : List I) :
    List I :=
  (gaSortByObj f pop).take k ++ offspring

/-- The generational loop of `SimpleGA.run` over a list of per-generation
offspring. -/
def gaRun (f : I → WithTop ℚ) (k : Nat) (pop0 : List I)
    (offs : List (List I)) : List I :=
  offs.foldl (fun pop off => gaGeneration f k pop off) pop0

/-- `min(self.population, key=lambda ind: ind.objectives[0])`: the first
individual attaining the minimum. -/
def gaBest (f : I → WithTop ℚ) : List I → Option I
  | [] => none
  | x :: xs => some (xs.foldl (fun b y => if f y < f b then y else b) x)

/-- The minimum objective value over a population (`⊤` if empty). -/
def minObj (f : I → WithTop ℚ) (pop : List I) : WithTop ℚ :=
  (pop.map f).foldr min ⊤

theorem minObj_le_of_mem (f : I → WithTop ℚ) (pop : List I) (x : I)
    (hx : x ∈ pop) : minObj f pop ≤ f x := by
  induction pop with
  | nil => simp at hx
  | cons y ys ih =>
    rw [minObj, List.map_cons, List.foldr_cons]
    rcases List.mem_cons.mp hx with rfl | hx'
    · exact min_le_left _ _
    · exact le_trans (min_le_right _ _) (ih hx')

theorem minObj_attained (f : I → WithTop ℚ) (pop : List I) (h : pop ≠ []) :
    ∃ x ∈ pop, f x = minObj f pop := by
  induction pop with
  | nil => exact absurd rfl h
  | cons y ys ih =>
    by_cases hys : ys = []
    · subst hys
      exact ⟨y, by simp, by simp [minObj]⟩
    · obtain ⟨x, hx, hfx⟩ := ih hys
      rcases le_total (f y) (minObj f ys) with hle | hle
      · refine ⟨y, by simp, ?_⟩
        show f y = min (f y) (minObj f ys)
        exact (min_eq_left hle).symm
      · refine ⟨x, by simp [hx], ?_⟩
        show f x = min (f y) (minObj f ys)
        rw [min_eq_right hle]
        exact hfx

theorem gaBest_spec (f : I → WithTop ℚ) (pop : List I) (h : pop ≠ []) :
    ∃ b, gaBest f pop = some b ∧ f b = minObj f pop := by
  match pop with
  | [] => exact absurd rfl h
  | x :: xs =>
    refine ⟨_, rfl, ?_⟩
    clear h
    induction xs generalizing x with
    | nil => simp [minObj]
    | cons y ys ih =>
      rw [List.foldl_cons]
      rw [ih (if f y < f x then y else x)]
      have hpick : f (if f y < f x then y else x) = min (f x) (f y) := by
        by_cases hc : f y < f x
        · rw [if_pos hc, min_eq_right hc.le]
        · rw [if_neg hc, min_eq_left (not_lt.mp hc)]
      rw [minObj, minObj, List.map_cons, List.map_cons, List.map_cons,
        List.foldr_cons, List.foldr_cons, List.foldr_cons, hpick]
      rw [← min_assoc]

theorem gaSortByObj_perm (f : I → WithTop ℚ) (pop : List I) :
    List.Perm (gaSortByObj f pop) pop :=
  stableSort_perm _ pop

theorem gaGeneration_min_le (f : I → WithTop ℚ) (k : Nat) (hk : 1 ≤ k)
    (pop off : List I) (hpop : pop ≠ []) :
    gaGeneration f k pop off ≠ [] ∧
    minObj f (gaGeneration f k pop off) ≤ minObj f pop := by
  have hsort := gaSortByObj_perm f pop
  have hsortne : gaSortByObj f pop ≠ [] := by
    intro hc
    rw [hc] at hsort
    exact hpop hsort.nil_eq.symm
  obtain ⟨y, ys, hys⟩ := List.exists_cons_of_ne_nil hsortne
  have hymem : y ∈ pop := hsort.mem_iff.mp (by rw [hys]; simp)
  have hsorted := stableSort_sorted (fun a b : I => f a ≤ f b)
    (fun a b hab => by
      rcases le_total (f a) (f b) with h | h
      · simp [h] at hab
      · simpa using h)
    (fun a b c hab hbc => by
      simp only [decide_eq_true_eq] at *
      exact le_trans hab hbc) pop
  rw [gaSortByObj] at hys
  rw [hys] at hsorted
  have hymin : ∀ z ∈ pop, f y ≤ f z := by
    intro z hz
    have hz' : z ∈ y :: ys := by
      rw [← hys]
      exact ((stableSort_perm (fun a b : I => f a ≤ f b) pop).symm.mem_iff).mp
        hz
    rcases List.mem_cons.mp hz' with rfl | hz''
    · exact le_refl _
    · have := (List.pairwise_cons.mp hsorted).1 z hz''
      simpa using this
  have hytake : y ∈ (gaSortByObj f pop).take k := by
    rw [gaSortByObj, hys]
    cases k with
    | zero => omega
    | succ k' => simp
  constructor
  · intro hc
    rw [gaGeneration] at hc
    have := List.append_eq_nil.mp hc
    rw [this.1] at hytake
    simp at hytake
  · obtain ⟨xm, hxm, hfxm⟩ := minObj_attained f pop hpop
    have h1 : minObj f (gaGeneration f k pop off) ≤ f y := by
      apply minObj_le_of_mem
      rw [gaGeneration]
      exact List.mem_append.mpr (Or.inl hytake)
    calc minObj f (gaGeneration f k pop off) ≤ f y := h1
      _ ≤ f xm := hymin xm hxm
      _ = minObj f pop := hfxm

/-- C10: with `elite_k = max(1, int(elitism_rate · pop_size)) ≥ 1` elites
copied unchanged into the next population, the minimum objective value is
nonincreasing from each generation to the next, and the individual
returned by `run()` (the objective-minimum of the final population) is no
worse than the best individual of the initial population — for every
sequence of offspring the RNG may produce. -/
theorem c10_ga_elitism_monotone (f : I → WithTop ℚ) (popSize : Nat)
    (rate : ℚ) (pop0 : List I) (offs : List (List I)) (h0 : pop0 ≠ []) :
    1 ≤ eliteK popSize rate ∧
    (∀ pop off, pop ≠ [] →
      gaGeneration f (eliteK popSize rate) pop off ≠ [] ∧
      minObj f (gaGeneration f (eliteK popSize rate) pop off) ≤
        minObj f pop) ∧
    gaRun f (eliteK popSize rate) pop0 offs ≠ [] ∧
    minObj f (gaRun f (eliteK popSize rate) pop0 offs) ≤ minObj f pop0 ∧
    ∃ b0 bN, gaBest f pop0 = some b0 ∧
      gaBest f (gaRun f (eliteK popSize rate) pop0 offs) = some bN ∧
      f bN ≤ f b0 := by
  have hk : 1 ≤ eliteK popSize rate := le_max_left _ _
  have hgen := fun pop off h =>
    gaGeneration_min_le f (eliteK popSize rate) hk pop off h
  have hrun : gaRun f (eliteK popSize rate) pop0 offs ≠ [] ∧
      minObj f (gaRun f (eliteK popSize rate) pop0 offs) ≤
        minObj f pop0 := by
    rw [gaRun]
    induction offs generalizing pop0 with
    | nil => exact ⟨h0, le_refl _⟩
    | cons off rest ih =>
      rw [List.foldl_cons]
      obtain ⟨hne, hle⟩ := hgen pop0 off h0
      obtain ⟨hne', hle'⟩ := ih _ hne
      exact ⟨hne', le_trans hle' hle⟩
  obtain ⟨hne, hle⟩ := hrun
  obtain ⟨b0, hb0, hfb0⟩ := gaBest_spec f pop0 h0
  obtain ⟨bN, hbN, hfbN⟩ :=
    gaBest_spec f (gaRun f (eliteK popSize rate) pop0 offs) hne
  exact ⟨hk, hgen, hne, hle,
    ⟨b0, bN, hb0, hbN, by rw [hfbN, hfb0]; exact hle⟩⟩

/-- Witness for C10 over concrete rational-valued individuals. -/
theorem c10_ga_elitism_monotone_witness :
    1 ≤ eliteK 4 (1/10) ∧
    (∀ pop off, pop ≠ [] →
      gaGeneration (fun q : ℚ => (q : WithTop ℚ)) (eliteK 4 (1/10)) pop off
        ≠ [] ∧
      minObj (fun q : ℚ => (q : WithTop ℚ))
        (gaGeneration (fun q : ℚ => (q : WithTop ℚ)) (eliteK 4 (1/10)) pop
          off) ≤
        minObj (fun q : ℚ => (q : WithTop ℚ)) pop) ∧
    gaRun (fun q : ℚ => (q : WithTop ℚ)) (eliteK 4 (1/10)) [3, 1, 2]
      [[5], [4]] ≠ [] ∧
    minObj (fun q : ℚ => (q : WithTop ℚ))
      (gaRun (fun q : ℚ => (q : WithTop ℚ)) (eliteK 4 (1/10)) [3, 1, 2]
        [[5], [4]]) ≤
      minObj (fun q : ℚ => (q : WithTop ℚ)) [3, 1, 2] ∧
    ∃ b0 bN, gaBest (fun q : ℚ => (q : WithTop ℚ)) [3, 1, 2] = some b0 ∧
      gaBest (fun q : ℚ => (q : WithTop ℚ))
        (gaRun (fun q : ℚ => (q : WithTop ℚ)) (eliteK 4 (1/10)) [3, 1, 2]
          [[5], [4]]) = some bN ∧
      (bN : WithTop ℚ) ≤ (b0 : WithTop ℚ) :=
  c10_ga_elitism_monotone (fun q : ℚ => (q : WithTop ℚ)) 4 (1/10)
    [3, 1, 2] [[5], [4]] (by simp)

/-! ## Configuration NSGA-II: dominance, fronts and crowding
(`src/morota/opt/robot_conf/nsga2.py`) -/

/-- The scan loop of `_dominates`: break (overall `False`) as soon as some
coordinate is worse; remember whether some coordinate was strictly
better. -/
def dominatesGo : List (ℚ × ℚ) → Bool → Bool
  | [], sb => sb
  | (x, y) :: rest, sb =>
    if x > y then false else dominatesGo rest (sb || decide (x < y))

/-- `_dominates` (minimization); individuals are their objective vectors.
(The `ValueError` on unevaluated individuals is not modelled; every
individual below carries its objectives.) -/
def dominates (a b : List ℚ) : Bool := dominatesGo (a.zip b) false

/-- The inner double loop of `_fast_non_dominated_sort`: decrement `n[j]`
for every `j` dominated by a member of the current front, collecting the
`j` whose count hits exactly zero. -/
def fndsInner (S : Nat → List Nat) (front : List Nat) (n : Nat → Int) :
    (Nat → Int) × List Nat :=
  front.foldl (fun acc i =>
    (S i).foldl (fun acc j =>
      ((fun j' => if j' = j then acc.1 j - 1 else acc.1 j'),
        if acc.1 j - 1 = 0 then acc.2 ++ [j] else acc.2)) acc) (n, [])

/-- The `while fronts[k]` loop of `_fast_non_dominated_sort`, driven by
fuel (the loop adds at least one index per nonempty front, so
`pop.length + 1` fuel always suffices). -/
def fndsLoop (S : Nat → List Nat) : Nat → (Nat → Int) → List Nat →
    List (List Nat)
  | 0, _, _ => []
  | fuel + 1, n, front =>
    if front.isEmpty then []
    else
      let step := fndsInner S front n
      front :: fndsLoop S fuel step.1 step.2

/-- `_fast_non_dominated_sort`, returning the fronts as lists of indices
into the population. -/
def fastNonDominatedSort (pop : List (List ℚ)) : List (List Nat) :=
  let idxs := List.range pop.length
  let objOf := fun i => pop.getD i []
  let S := fun i => idxs.filter fun j =>
    decide (j ≠ i) && dominates (objOf i) (objOf j)
  let n0 : Nat → Int := fun i => ((idxs.filter fun j =>
    decide (j ≠ i) && dominates (objOf j) (objOf i)).length : Int)
  let front0 := idxs.filter fun i => n0 i = 0
  fndsLoop S (pop.length + 1) n0 front0

/-- Pointwise update of a crowding map. -/
def setCrowd (c : Nat → WithTop ℚ) (i : Nat) (v : WithTop ℚ) :
    Nat → WithTop ℚ :=
  fun j => if j = i then v else c j

/-- One `k`-iteration of `_crowding_distance`: re-sort the front by the
`k`-th objective (stable, in place), give the two extremes `inf`, skip
degenerate ranges (`|fmax − fmin| ≤ 1e-12`), and add the normalized
neighbour gap to each interior individual not already at `inf`. -/
def crowdingStep (objK : Nat → Nat → ℚ) (st : List Nat × (Nat → WithTop ℚ))
    (k : Nat) : List Nat × (Nat → WithTop ℚ) :=
  let sorted := stableSort (fun i j => objK i k ≤ objK j k) st.1
  let l := sorted.length
  let c1 := setCrowd st.2 (sorted.getD 0 0) ⊤
  let c2 := setCrowd c1 (sorted.getD (l - 1) 0) ⊤
  let fmin := objK (sorted.getD 0 0) k
  let fmax := objK (sorted.getD (l - 1) 0) k
  if |fmax - fmin| ≤ 1e-12 then (sorted, c2)
  else
    (sorted, (List.range (l - 2)).foldl (fun c idx =>
      let i := idx + 1
      let d := (objK (sorted.getD (i + 1) 0) k -
        objK (sorted.getD (i - 1) 0) k) / (fmax - fmin)
      if c (sorted.getD i 0) = ⊤ then c
      else setCrowd c (sorted.getD i 0)
        (c (sorted.getD i 0) + (d : WithTop ℚ))) c2)

/-- `_crowding_distance` on a front of indices: every member starts at
`0.0`; fronts of at most two members get `inf` everywhere; larger fronts
accumulate the normalized gaps objective by objective.  (The map is
meaningful on the front's members only.) -/
def crowdingDistance (pop : List (List ℚ)) (front : List Nat) :
    Nat → WithTop ℚ :=
  let objK := fun i k => (pop.getD i []).getD k 0
  let c0 : Nat → WithTop ℚ := fun _ => ((0 : ℚ) : WithTop ℚ)
  if front.length = 0 then c0
  else if front.length ≤ 2 then front.foldl (fun c i => setCrowd c i ⊤) c0
  else
    let m := (pop.getD (front.getD 0 0) []).length
    ((List.range m).foldl (crowdingStep objK) (front, c0)).2

/-- The population of scenario E6: objective pairs
`(1,4), (2,3), (3,2), (4,1)` and `(5,5)`. -/
def popC7 : List (List ℚ) := [[1, 4], [2, 3], [3, 2], [4, 1], [5, 5]]

/-- Counterexample to C7 as stated: front 0 of the E6 population has four
members — two extremes and only *two* interior individuals (not three) —
and the crowding distance of an interior individual is `4/3`, not `1.0`. -/
theorem c7_counterexample :
    ((fastNonDominatedSort popC7).getD 0 []).length = 4 ∧
    crowdingDistance popC7 [0, 1, 2, 3] 1 = (((4 : ℚ) / 3 : ℚ) : WithTop ℚ) ∧
    (((4 : ℚ) / 3 : ℚ) : WithTop ℚ) ≠ (((1 : ℚ) : ℚ) : WithTop ℚ) := by
  refine ⟨by decide, ?_, by norm_num⟩
  norm_num [crowdingDistance, crowdingStep, setCrowd, stableSort,
    stableInsert, popC7, List.range_succ, List.getD, ← WithTop.coe_add]

set_option maxHeartbeats 2000000 in
/-- The corrected C7: the fast-non-dominated-sort of the E6 population
places the first four individuals in front 0 and `(5,5)` alone in front 1,
and after normalization the two extreme members of front 0 have crowding
`inf` while each of the two interior members has crowding `4/3`. -/
theorem c7_nsga2_sort_and_crowding :
    fastNonDominatedSort popC7 = [[0, 1, 2, 3], [4]] ∧
    crowdingDistance popC7 [0, 1, 2, 3] 0 = ⊤ ∧
    crowdingDistance popC7 [0, 1, 2, 3] 3 = ⊤ ∧
    crowdingDistance popC7 [0, 1, 2, 3] 1 = (((4 : ℚ) / 3 : ℚ) : WithTop ℚ) ∧
    crowdingDistance popC7 [0, 1, 2, 3] 2 =
      (((4 : ℚ) / 3 : ℚ) : WithTop ℚ) := by
  refine ⟨by decide, ?_, ?_, ?_, ?_⟩ <;>
    norm_num [crowdingDistance, crowdingStep, setCrowd, stableSort,
      stableInsert, popC7, List.range_succ, List.getD, ← WithTop.coe_add]

/-! ## Configuration NSGA-II: feasibility layers and infeasibility penalty
(`src/morota/opt/robot_conf/representation.py`,
`src/morota/opt/robot_conf/evaluator.py`,
`src/morota/opt/robot_conf/nsga2.py`) -/

/-- The configuration `Individual`: a fixed-length vector of desired robot
types, `none` meaning "do not use this worker slot". -/
structure ConfIndividual where
  numWorkersMax : Nat
  workerTypes : List (Option String)

/-- `_add_counts`: merge count maps, accumulating per key. -/
def addCounts (a b : List (String × Nat)) : List (String × Nat) :=
  b.foldl (fun out p => alistSet out p.1 (alistGetD out p.1 0 + p.2)) a

/-- `_deficits(required, have)`: the per-type shortfall of `have` against
`required`, in the key order of `required`. -/
def deficitsAgainst (required haveSnap : List (String × Nat)) :
    List (String × Nat) :=
  required.foldl (fun d p =>
    if alistGetD haveSnap p.1 0 < p.2 then
      d ++ [(p.1, p.2 - alistGetD haveSnap p.1 0)]
    else d) []

/-- `Individual.total_required_modules`: the full module counts the whole
vector requires; `none` where the source raises on an unknown robot
type. -/
def totalRequiredModules (cfg : SimCfg) (ind : ConfIndividual) :
    Option (List (String × Nat)) :=
  ind.workerTypes.foldl (fun acc rt? =>
    match acc, rt? with
    | none, _ => none
    | some req, none => some req
    | some req, some rt =>
      if (cfg.robotTypes.map Prod.fst).contains rt then
        some (addCounts req (specOf cfg rt).requiredModules)
      else none) (some [])

/-- `Individual.is_feasible`: the *full* total requirement has no deficit
against the depot snapshot (current worker modules are not consulted). -/
def confIsFeasible (cfg : SimCfg) (snapshot : List (String × Nat))
    (ind : ConfIndividual) : Option Bool :=
  (totalRequiredModules cfg ind).map fun req =>
    (deficitsAgainst req snapshot).isEmpty

/-- The per-slot need accumulation of `_compute_need_total` (the loop of
`_violates_depot_capacity` is verbatim the same): the full requirement for
an unused or dead slot, only the deficit against the worker's current
modules for an alive slot; `none` where the source raises on an unknown
robot type. -/
def computeNeedTotal (cfg : SimCfg) (workers : Nat → Option Worker)
    (ind : ConfIndividual) : Option (List (String × Nat)) :=
  ind.workerTypes.enum.foldl (fun acc p =>
    match acc, p.2 with
    | none, _ => none
    | some need, none => some need
    | some need, some desired =>
      if (cfg.robotTypes.map Prod.fst).contains desired then
        let spec := specOf cfg desired
        match workers p.1 with
        | some w =>
          if w.robotType.isSome then
            some (spec.requiredModules.foldl (fun nt q =>
              let deficit : Int :=
                (q.2 : Int) - (countType w.modules q.1 : Int)
              if 0 < deficit then
                alistSet nt q.1 (alistGetD nt q.1 0 + deficit.toNat)
              else nt) need)
          else
            some (spec.requiredModules.foldl (fun nt q =>
              alistSet nt q.1 (alistGetD nt q.1 0 + q.2)) need)
        | none =>
          some (spec.requiredModules.foldl (fun nt q =>
            alistSet nt q.1 (alistGetD nt q.1 0 + q.2)) need)
      else none) (some [])

/-- `ConfigurationEvaluator._violates_depot_capacity`: some needed count
exceeds the depot snapshot. -/
def violatesDepotCapacity (cfg : SimCfg) (workers : Nat → Option Worker)
    (stock : List (String × Nat)) (ind : ConfIndividual) : Option Bool :=
  (computeNeedTotal cfg workers ind).map fun need =>
    need.any fun p => alistGetD stock p.1 0 < p.2

/-- `ConfigurationEvaluator._violates_all_none`: every gene is `None`. -/
def violatesAllNone (ind : ConfIndividual) : Bool :=
  ind.workerTypes.all Option.isNone

/-- `ConfigurationEvaluator.__call__`: the worst pair `(inf, inf)` on a
depot-capacity violation or an all-`None` vector, else
`[-total_nominal, -min_remain]` where the nominal sum skips unknown types
and `min_remain` (via `_reserve_variation_min_remain`) is the smallest
clamped per-type stock surplus; `none` where the source raises (unknown
type in the need computation, or an empty snapshot). -/
noncomputable def configEvaluate (cfg : SimCfg)
    (workers : Nat → Option Worker) (stock : List (String × Nat))
    (ind : ConfIndividual) : Option (List (WithTop ℝ)) :=
  match violatesDepotCapacity cfg workers stock ind with
  | none => none
  | some true => some [⊤, ⊤]
  | some false =>
    if violatesAllNone ind then some [⊤, ⊤]
    else
      let totalNominal : ℝ := ind.workerTypes.foldl (fun acc rt? =>
        match rt? with
        | none => acc
        | some rt =>
          if (cfg.robotTypes.map Prod.fst).contains rt then
            acc + ((specOf cfg rt).speed + (specOf cfg rt).throughput)
          else acc) 0
      match computeNeedTotal cfg workers ind with
      | none => none
      | some need =>
        match stock.map Prod.fst with
        | [] => none
        | t0 :: rest =>
          let remain := fun t => alistGetD stock t 0 - alistGetD need t 0
          let minRemain : Nat :=
            rest.foldl (fun acc t => min acc (remain t)) (remain t0)
          some [((-totalNominal : ℝ) : WithTop ℝ),
            ((-(minRemain : ℝ) : ℝ) : WithTop ℝ)]

/-- `NSGA2._evaluate_individual`, returning the pair the source stores as
`ind.objectives` and `ind.fitness["feasible"]`: with
`penalize_infeasible`, an individual failing `Individual.is_feasible` gets
the finite penalty pair `[infeasible_penalty, infeasible_penalty]` and the
flag `False`; otherwise the evaluator's objectives and the flag `True`. -/
noncomputable def nsga2EvaluateIndividual (cfg : SimCfg)
    (workers : Nat → Option Worker) (stock : List (String × Nat))
    (penalize : Bool) (penalty : ℝ) (ind : ConfIndividual) :
    Option (List (WithTop ℝ) × Bool) :=
  if penalize then
    match confIsFeasible cfg stock ind with
    | none => none
    | some false =>
      some ([((penalty : ℝ) : WithTop ℝ), ((penalty : ℝ) : WithTop ℝ)],
        false)
    | some true =>
      (configEvaluate cfg workers stock ind).map fun objs => (objs, true)
  else
    (configEvaluate cfg workers stock ind).map fun objs => (objs, true)

/-- A configuration with one robot type `A` requiring one `Body`. -/
def cfgC4 : SimCfg :=
  ⟨[("A", ⟨[("Body", 1)], 1, 1⟩)], [("A", 0)], 1, 1⟩

/-- An alive worker in slot 0 already holding the `Body` its type needs. -/
def workerC4alive : Worker where
  workerId := 0
  modules := [sampleModule 20 "Body"]
  declaredType := some "A"
  robotType := some "A"
  speed := 2
  throughput := 2
  totalMoveDistance := 0
  pos := (0, 0)
  mode := .idle
  durationLeft := 0
  reconfDeficits := []
  reconfExcess := []

def workersC4 : Nat → Option Worker :=
  fun i => if i = 0 then some workerC4alive else none

/-- The snapshot of an empty depot. -/
def stockC4 : List (String × Nat) := []

def indC4 : ConfIndividual := ⟨1, [some "A"]⟩

/-- Counterexample to C4 as stated: keeping the alive worker of slot 0
needs no additional module (the deficit-based need is coverable by the
empty depot and the vector is not all-`None`), yet `_evaluate_individual`
penalizes the individual — `Individual.is_feasible` ignores current
modules — and the penalty pair is the finite `(1e12, 1e12)`, not
`(+inf, +inf)`. -/
theorem c4_counterexample :
    violatesDepotCapacity cfgC4 workersC4 stockC4 indC4 = some false ∧
    violatesAllNone indC4 = false ∧
    confIsFeasible cfgC4 stockC4 indC4 = some false ∧
    nsga2EvaluateIndividual cfgC4 workersC4 stockC4 true (1e12 : ℝ) indC4 =
      some ([(((1e12 : ℝ)) : WithTop ℝ), (((1e12 : ℝ)) : WithTop ℝ)],
        false) ∧
    (((1e12 : ℝ)) : WithTop ℝ) ≠ (⊤ : WithTop ℝ) :=
  ⟨by decide, by decide, by decide, rfl, WithTop.coe_ne_top⟩

/-- C4, corrected: with `penalize_infeasible` the NSGA-II gate keys on the
*full-requirement* `Individual.is_feasible` and assigns the *finite* pair
`[penalty, penalty]` with feasibility flag `False`; a feasible individual
is scored by the evaluator, which separately applies the deficit-based
capacity check of the claim and returns `[inf, inf]` on a violation or an
all-`None` vector, and a finite objective pair otherwise. -/
theorem c4_nsga2_feasibility_and_penalty (cfg : SimCfg)
    (workers : Nat → Option Worker) (stock : List (String × Nat))
    (ind : ConfIndividual) (penalty : ℝ) :
    (confIsFeasible cfg stock ind = some false →
      nsga2EvaluateIndividual cfg workers stock true penalty ind =
        some ([((penalty : ℝ) : WithTop ℝ), ((penalty : ℝ) : WithTop ℝ)],
          false)) ∧
    (confIsFeasible cfg stock ind = some true →
      nsga2EvaluateIndividual cfg workers stock true penalty ind =
        (configEvaluate cfg workers stock ind).map fun objs =>
          (objs, true)) ∧
    (violatesDepotCapacity cfg workers stock ind = some true →
      configEvaluate cfg workers stock ind = some [⊤, ⊤]) ∧
    (violatesDepotCapacity cfg workers stock ind = some false →
      violatesAllNone ind = true →
      configEvaluate cfg workers stock ind = some [⊤, ⊤]) ∧
    (violatesDepotCapacity cfg workers stock ind = some false →
      violatesAllNone ind = false → stock.map Prod.fst ≠ [] →
      ∃ a b : ℝ, configEvaluate cfg workers stock ind =
        some [((a : ℝ) : WithTop ℝ), ((b : ℝ) : WithTop ℝ)]) := by
  refine ⟨?_, ?_, ?_, ?_, ?_⟩
  · intro h; simp [nsga2EvaluateIndividual, h]
  · intro h; simp [nsga2EvaluateIndividual, h]
  · intro h; simp [configEvaluate, h]
  · intro h1 h2; simp [configEvaluate, h1, h2]
  · intro h1 h2 h3
    cases hnt : computeNeedTotal cfg workers ind with
    | none => simp [violatesDepotCapacity, hnt] at h1
    | some need =>
      cases hk : stock.map Prod.fst with
      | nil => exact absurd hk h3
      | cons t0 rest =>
        simp only [configEvaluate, h1, h2, hnt, hk, Bool.false_eq_true,
          if_false]
        exact ⟨_, _, rfl⟩

/-- Witness for C4 at the concrete scenario: the penalty branch fires on
the infeasible-by-`is_feasible` individual. -/
theorem c4_nsga2_feasibility_and_penalty_witness :
    nsga2EvaluateIndividual cfgC4 workersC4 stockC4 true (1e12 : ℝ) indC4 =
      some ([(((1e12 : ℝ)) : WithTop ℝ), (((1e12 : ℝ)) : WithTop ℝ)],
        false) :=
  (c4_nsga2_feasibility_and_penalty cfgC4 workersC4 stockC4 indC4
    (1e12 : ℝ)).1 (by decide)

/-! ## Task-order GA: route repair and initial assignment
(`src/morota/opt/task_order/crossover.py`,
`src/morota/opt/task_order/initialization.py`,
`src/morota/sim/task_allocator/ga_allocator.py`) -/

/-- Route layers keyed by worker id (a dict read with
`routes.get(wid, [])`): point update of one worker's route. -/
def updRoute (R : Nat → List Nat) (w : Nat) (l : List Nat) :
    Nat → List Nat :=
  fun v => if v = w then l else R v

/-- One removal of the duplicate-removal loop of
`repair_routes_feasibility_routes`: `route.pop(pos)` guarded by
`0 <= pos < len(route) and route[pos] == t`, with the fallback
`route.remove(t)` (a no-op when `t` is absent, the swallowed
`ValueError`). -/
def removeAt (t : Nat) (r : List Nat) (pos : Nat) : List Nat :=
  if pos < r.length ∧ r.getD pos 0 = t then r.eraseIdx pos else r.erase t

/-- The fold of `removeAt` over the removal operations of one task. -/
def opsFold (t : Nat) (ops : List (Nat × Nat)) (R : Nat → List Nat) :
    Nat → List Nat :=
  ops.foldl (fun R op => updRoute R op.1 (removeAt t (R op.1) op.2)) R

/-- The sort key `(wids.index(wid), -pos)` of the removal operations, as a
total preorder. -/
def widPosLe (wids : List Nat) (a b : Nat × Nat) : Bool :=
  decide (wids.indexOf a.1 < wids.indexOf b.1) ||
    (decide (wids.indexOf a.1 = wids.indexOf b.1) && decide (b.2 ≤ a.2))

/-- `appearances[t]`: the `(wid, pos)` occurrences of task `t` over all
workers (the source records a position exactly when `0 <= task < T`), in
worker order then position order. -/
def appearancesOf (wids : List Nat) (R : Nat → List Nat) (T t : Nat) :
    List (Nat × Nat) :=
  (wids.map fun w =>
    (R w).enum.filterMap fun pq =>
      if pq.2 = t ∧ t < T then some (w, pq.1) else none).flatten

/-- The body of the duplicate-removal loop: tasks with at most one
recorded appearance are skipped, otherwise all but the last recorded
appearance are removed, most recent position first within a worker. -/
def dedupBody (wids : List Nat) (app : Nat → List (Nat × Nat))
    (R : Nat → List Nat) (t : Nat) : Nat → List Nat :=
  if (app t).length ≤ 1 then R
  else opsFold t (stableSort (widPosLe wids) (app t).dropLast) R

/-- The duplicate-removal loop over `range(T)`. -/
def dedupFold (wids : List Nat) (app : Nat → List (Nat × Nat)) (T : Nat)
    (R : Nat → List Nat) : Nat → List Nat :=
  (List.range T).foldl (dedupBody wids app) R

/-- The duplicate-removal phase of `repair_routes_feasibility_routes`:
the appearance table is computed once up front, so later iterations dedup
against stale positions — hence the fallback in `removeAt`. -/
def dedupPhase (wids : List Nat) (T : Nat) (R : Nat → List Nat) :
    Nat → List Nat :=
  dedupFold wids (appearancesOf wids R T) T R

/-- The insertion loop for unassigned tasks: candidates are the workers
whose route length is below `L_max` (all workers when none is), and the
worker and insertion position are drawn from the oracle streams `cW`,
`cP` (covering every RNG outcome). -/
def insertAll (wids : List Nat) (Lmax : Nat) (cW cP : Nat → Nat) :
    Nat → List Nat → (Nat → List Nat) → Nat → List Nat
  | _, [], R => R
  | n, t :: rest, R =>
    let cs0 := wids.filter fun w => (R w).length < Lmax
    let cs := if cs0.isEmpty then wids else cs0
    let w := cs.getD (cW n % cs.length) 0
    let r := R w
    insertAll wids Lmax cW cP (n + 1) rest
      (updRoute R w (r.insertIdx (cP n % (r.length + 1)) t))

/-- `repair_routes_feasibility_routes`, with the shuffled unassigned list
`order` and the RNG draws `cW`, `cP` passed as oracles. -/
def repairRoutes (wids : List Nat) (T Lmax : Nat) (cW cP : Nat → Nat)
    (order : List Nat) (routes : Nat → List Nat) : Nat → List Nat :=
  insertAll wids Lmax cW cP 0 order (dedupPhase wids T routes)

/-- The total number of occurrences of task `t` over all workers'
routes. -/
def totalCount (wids : List Nat) (R : Nat → List Nat) (t : Nat) : Nat :=
  (wids.map fun w => (R w).count t).sum

/-- The removal operations recorded for worker `w`. -/
def opsW (ops : List (Nat × Nat)) (w : Nat) : Nat :=
  (ops.filter fun o => decide (o.1 = w)).length

/-- The loop of `_assign_tasks_to_workers_randomly` (the GA's initial
plan): each task id is appended to a randomly chosen worker whose route
is still below `L_max`; `none` where the source raises when no worker has
room. -/
def assignInit (numWorkers Lmax : Nat) (cW : Nat → Nat) :
    Nat → List Nat → List (List Nat) → Option (List (List Nat))
  | _, [], routes => some routes
  | n, t :: rest, routes =>
    let cs := (List.range numWorkers).filter fun i =>
      (routes.getD i []).length < Lmax
    if cs.isEmpty then none
    else
      let i := cs.getD (cW n % cs.length) 0
      assignInit numWorkers Lmax cW (n + 1) rest
        (routes.set i (routes.getD i [] ++ [t]))

/-- `_assign_tasks_to_workers_randomly`: the up-front capacity guard, then
the assignment loop over the shuffled task ids. -/
def assignTasksRandomly (numWorkers T Lmax : Nat) (cW : Nat → Nat)
    (taskIds : List Nat) : Option (List (List Nat)) :=
  if numWorkers * Lmax < T then none
  else assignInit numWorkers Lmax cW 0 taskIds (List.replicate numWorkers [])

/-- Total occurrences of task `t` in a list-based route layer. -/
def totalCountL (routes : List (List Nat)) (t : Nat) : Nat :=
  (routes.map fun r => r.count t).sum

/-- `num_tasks` exactly as `GeneticAllocator._ensure_plan` computes it:
`len(model.tasks)` — every task of the model, done or not. -/
def numTasksForPlan (tasks : List TaskState) : Nat := tasks.length

theorem opsFold_nil (t : Nat) (R : Nat → List Nat) : opsFold t [] R = R := rfl

theorem opsFold_cons (t : Nat) (o : Nat × Nat) (rest : List (Nat × Nat))
    (R : Nat → List Nat) :
    opsFold t (o :: rest) R =
      opsFold t rest (updRoute R o.1 (removeAt t (R o.1) o.2)) := rfl

theorem count_eraseIdx_add (a : Nat) :
    ∀ (r : List Nat) (pos : Nat), pos < r.length →
      (r.eraseIdx pos).count a + (if r.getD pos 0 = a then 1 else 0) =
        r.count a
  | [], pos, h => absurd h (by simp)
  | x :: xs, 0, _ => by
    show xs.count a + (if x = a then 1 else 0) = (x :: xs).count a
    by_cases h : x = a
    · subst h; simp [List.count_cons]
    · simp [List.count_cons, h, Ne.symm h]
  | x :: xs, pos + 1, h => by
    have ih := count_eraseIdx_add a xs pos (by simpa using h)
    show (x :: xs.eraseIdx pos).count a +
        (if xs.getD pos 0 = a then 1 else 0) = (x :: xs).count a
    by_cases hx : a = x
    · simp only [List.count_cons, if_pos hx]
      omega
    · simp only [List.count_cons, if_neg hx]
      omega

theorem removeAt_count_self (t : Nat) (r : List Nat) (pos : Nat) :
    (removeAt t r pos).count t = r.count t - 1 := by
  rw [removeAt]
  split
  · next h =>
    have := count_eraseIdx_add t r pos h.1
    rw [if_pos h.2] at this
    omega
  · exact List.count_erase_self t r

theorem removeAt_count_ne (t t' : Nat) (h : t' ≠ t) (r : List Nat)
    (pos : Nat) :
    (removeAt t r pos).count t' = r.count t' := by
  rw [removeAt]
  split
  · next hg =>
    have := count_eraseIdx_add t' r pos hg.1
    rw [if_neg (by rw [hg.2]; exact fun e => h e.symm)] at this
    omega
  · exact List.count_erase_of_ne h r

theorem opsW_cons (o : Nat × Nat) (rest : List (Nat × Nat)) (w : Nat) :
    opsW (o :: rest) w = opsW rest w + (if o.1 = w then 1 else 0) := by
  by_cases h : o.1 = w <;> simp [opsW, List.filter, h] <;> omega

theorem opsFold_count_self (t : Nat) :
    ∀ (ops : List (Nat × Nat)) (R : Nat → List Nat),
      (∀ w, opsW ops w ≤ (R w).count t) →
      ∀ w, ((opsFold t ops R) w).count t = (R w).count t - opsW ops w
  | [], R, _, w => by simp [opsFold, opsW]
  | o :: rest, R, hb, w => by
    have hR' :
        ∀ v, ((updRoute R o.1 (removeAt t (R o.1) o.2)) v).count t =
          (R v).count t - (if o.1 = v then 1 else 0) := by
      intro v
      by_cases hv : v = o.1
      · subst hv; simp [updRoute, removeAt_count_self]
      · simp [updRoute, hv, Ne.symm hv]
    have hb' : ∀ w', opsW rest w' ≤
        ((updRoute R o.1 (removeAt t (R o.1) o.2)) w').count t := by
      intro w'
      have h1 := hb w'
      rw [opsW_cons] at h1
      rw [hR' w']
      by_cases hw' : o.1 = w' <;> simp [hw'] at h1 ⊢ <;> omega
    have ih := opsFold_count_self t rest
      (updRoute R o.1 (removeAt t (R o.1) o.2)) hb' w
    have hge : (if o.1 = w then 1 else 0) ≤ (R w).count t := by
      have := hb w
      rw [opsW_cons] at this
      omega
    rw [opsFold_cons, ih, hR' w, opsW_cons]
    omega

theorem opsFold_count_ne (t t' : Nat) (h : t' ≠ t) :
    ∀ (ops : List (Nat × Nat)) (R : Nat → List Nat) (w : Nat),
      ((opsFold t ops R) w).count t' = (R w).count t'
  | [], R, w => by simp [opsFold]
  | o :: rest, R, w => by
    have ih := opsFold_count_ne t t' h rest
      (updRoute R o.1 (removeAt t (R o.1) o.2)) w
    rw [opsFold_cons, ih]
    by_cases hv : w = o.1
    · subst hv; simp [updRoute, removeAt_count_ne t t' h]
    · simp [updRoute, hv]

theorem sum_map_add_nat (l : List α) (f g : α → Nat) :
    (l.map fun x => f x + g x).sum = (l.map f).sum + (l.map g).sum := by
  induction l with
  | nil => simp
  | cons x xs ih => simp [ih]; omega

theorem sum_map_sub_nat (l : List α) (f g : α → Nat)
    (h : ∀ a ∈ l, g a ≤ f a) :
    (l.map fun x => f x - g x).sum = (l.map f).sum - (l.map g).sum := by
  induction l with
  | nil => simp
  | cons x xs ih =>
    have hx := h x (by simp)
    have hxs : (xs.map g).sum ≤ (xs.map f).sum :=
      List.sum_le_sum fun a ha => h a (List.mem_cons_of_mem x ha)
    simp only [List.map_cons, List.sum_cons,
      ih (fun a ha => h a (List.mem_cons_of_mem x ha))]
    omega

theorem sum_indicator (a : Nat) (l : List Nat) :
    (l.map fun w => if a = w then 1 else 0).sum = l.count a := by
  induction l with
  | nil => simp
  | cons x xs ih =>
    simp only [List.map_cons, List.sum_cons, List.count_cons, ih]
    by_cases h : a = x <;> simp [h] <;> omega

theorem sum_opsW (wids : List Nat) (hN : wids.Nodup) :
    ∀ ops : List (Nat × Nat), (∀ o ∈ ops, o.1 ∈ wids) →
      (wids.map (opsW ops)).sum = ops.length
  | [], _ => by
    rw [show wids.map (opsW []) = wids.map fun _ => 0 from
      List.map_congr_left fun w _ => by simp [opsW]]
    simp
  | o :: rest, hin => by
    have ih := sum_opsW wids hN rest (fun o' ho' => hin o' (by simp [ho']))
    have hmap : wids.map (opsW (o :: rest)) =
        wids.map fun w => opsW rest w + (if o.1 = w then 1 else 0) :=
      List.map_congr_left fun w _ => opsW_cons o rest w
    rw [hmap, sum_map_add_nat, ih, sum_indicator,
      List.count_eq_one_of_mem hN (hin o (by simp))]
    simp



theorem enumFrom_filterMap_length (t T w : Nat) (hT : t < T) :
    ∀ (r : List Nat) (n : Nat),
      ((List.enumFrom n r).filterMap fun pq =>
        if pq.2 = t ∧ t < T then some (w, pq.1) else none).length =
        r.count t
  | [], _ => by simp
  | x :: xs, n => by
    have ih := enumFrom_filterMap_length t T w hT xs (n + 1)
    show ((List.filterMap _ ((n, x) :: List.enumFrom (n + 1) xs))).length = _
    by_cases hx : x = t
    · subst hx
      have ih' : (List.filterMap (fun pq =>
          if pq.2 = x then some (w, pq.1) else none)
          (List.enumFrom (n + 1) xs)).length = List.count x xs := by
        simpa [hT] using ih
      simp [List.filterMap_cons, hT, List.count_cons, ih']
    · simp [List.filterMap_cons, hx, ih, List.count_cons, Ne.symm hx]

theorem enum_filterMap_length (t T w : Nat) (hT : t < T) (r : List Nat) :
    ((r.enum.filterMap fun pq =>
      if pq.2 = t ∧ t < T then some (w, pq.1) else none)).length =
      r.count t :=
  enumFrom_filterMap_length t T w hT r 0

theorem mem_inner_fst (w0 t T : Nat) (r : List Nat) :
    ∀ o ∈ (r.enum.filterMap fun pq =>
      if pq.2 = t ∧ t < T then some (w0, pq.1) else none), o.1 = w0 := by
  intro o ho
  rcases List.mem_filterMap.mp ho with ⟨pq, _, hpq⟩
  split at hpq
  · obtain rfl : (w0, pq.1) = o := by simpa using hpq
    rfl
  · simp at hpq

theorem mem_appearancesOf (wids : List Nat) (R : Nat → List Nat)
    (T t : Nat) :
    ∀ o ∈ appearancesOf wids R T t, o.1 ∈ wids := by
  intro o ho
  rcases List.mem_flatten.mp ho with ⟨l, hl, hol⟩
  rcases List.mem_map.mp hl with ⟨w, hw, rfl⟩
  have := mem_inner_fst w t T (R w) o hol
  rw [this]
  exact hw

theorem opsW_append (a b : List (Nat × Nat)) (w : Nat) :
    opsW (a ++ b) w = opsW a w + opsW b w := by
  simp [opsW, List.filter_append]

theorem opsW_eq_zero_of_keys_ne :
    ∀ (ops : List (Nat × Nat)) (w : Nat), (∀ o ∈ ops, o.1 ≠ w) →
      opsW ops w = 0
  | [], _, _ => rfl
  | o :: rest, w, h => by
    have ih := opsW_eq_zero_of_keys_ne rest w fun o' ho' =>
      h o' (by simp [ho'])
    rw [opsW_cons, ih, if_neg (h o (by simp))]

theorem opsW_eq_length_of_keys_eq :
    ∀ (ops : List (Nat × Nat)) (w : Nat), (∀ o ∈ ops, o.1 = w) →
      opsW ops w = ops.length
  | [], _, _ => rfl
  | o :: rest, w, h => by
    have ih := opsW_eq_length_of_keys_eq rest w fun o' ho' =>
      h o' (by simp [ho'])
    rw [opsW_cons, ih, if_pos (h o (by simp))]
    simp [Nat.add_comm]

theorem appearancesOf_cons (w0 : Nat) (ws : List Nat)
    (R : Nat → List Nat) (T t : Nat) :
    appearancesOf (w0 :: ws) R T t =
      ((R w0).enum.filterMap fun pq =>
        if pq.2 = t ∧ t < T then some (w0, pq.1) else none) ++
        appearancesOf ws R T t := by
  simp [appearancesOf]

theorem opsW_appearancesOf (T t : Nat) (hT : t < T) (R : Nat → List Nat) :
    ∀ wids : List Nat, wids.Nodup → ∀ w ∈ wids,
      opsW (appearancesOf wids R T t) w = (R w).count t
  | [], _, w, hw => absurd hw (by simp)
  | w0 :: ws, hN, w, hw => by
    have hN' := (List.nodup_cons.mp hN).2
    have hw0 := (List.nodup_cons.mp hN).1
    rcases List.mem_cons.mp hw with rfl | hmem
    · have hz : opsW (appearancesOf ws R T t) w = 0 :=
        opsW_eq_zero_of_keys_ne _ _ (fun o ho e => by
          have hm := mem_appearancesOf ws R T t o ho
          rw [e] at hm
          exact hw0 hm)
      rw [appearancesOf_cons, opsW_append,
        opsW_eq_length_of_keys_eq _ _ (mem_inner_fst w t T (R w)), hz,
        enum_filterMap_length t T w hT]
      simp
    · have hne : w ≠ w0 := fun e => hw0 (e ▸ hmem)
      have hz : opsW ((R w0).enum.filterMap fun pq =>
          if pq.2 = t ∧ t < T then some (w0, pq.1) else none) w = 0 :=
        opsW_eq_zero_of_keys_ne _ _ (fun o ho e => by
          rw [mem_inner_fst w0 t T (R w0) o ho] at e
          exact hne e.symm)
      rw [appearancesOf_cons, opsW_append, hz,
        opsW_appearancesOf T t hT R ws hN' w hmem]
      simp


theorem totalCount_eq_app_length (wids : List Nat) (hN : wids.Nodup)
    (R : Nat → List Nat) (T t : Nat) (hT : t < T) :
    totalCount wids R t = (appearancesOf wids R T t).length := by
  have hmap : wids.map (fun w => (R w).count t) =
      wids.map (opsW (appearancesOf wids R T t)) :=
    List.map_congr_left fun w hw =>
      (opsW_appearancesOf T t hT R wids hN w hw).symm
  rw [totalCount, hmap, sum_opsW wids hN _ (mem_appearancesOf wids R T t)]

theorem dedupBody_total (wids : List Nat) (hN : wids.Nodup)
    (app : Nat → List (Nat × Nat)) (t : Nat)
    (happ : ∀ o ∈ app t, o.1 ∈ wids)
    (R : Nat → List Nat)
    (hcnt : ∀ w ∈ wids, (R w).count t = opsW (app t) w) :
    totalCount wids (dedupBody wids app R t) t =
      min ((app t).length) 1 := by
  have htot : totalCount wids R t = (app t).length := by
    rw [totalCount, List.map_congr_left (fun w hw => hcnt w hw),
      sum_opsW wids hN _ happ]
  rw [dedupBody]
  split
  · next hle =>
    rw [htot]
    omega
  · next hgt =>
    have hperm : List.Perm (stableSort (widPosLe wids) (app t).dropLast)
        ((app t).dropLast) := stableSort_perm _ _
    set ops := stableSort (widPosLe wids) (app t).dropLast with hops
    have hopsin : ∀ o ∈ ops, o.1 ∈ wids := fun o ho =>
      happ o ((List.dropLast_sublist (app t)).subset (hperm.mem_iff.mp ho))
    have hopsW_le : ∀ w, opsW ops w ≤ opsW (app t) w := by
      intro w
      have h1 : opsW ops w = opsW ((app t).dropLast) w := by
        rw [opsW, opsW]
        exact (hperm.filter _).length_eq
      rw [h1, opsW, opsW]
      exact ((List.dropLast_sublist (app t)).filter _).length_le
    have hbudget : ∀ w, opsW ops w ≤ (R w).count t := by
      intro w
      by_cases hw : w ∈ wids
      · rw [hcnt w hw]; exact hopsW_le w
      · have hz : opsW ops w = 0 :=
          opsW_eq_zero_of_keys_ne ops w fun o ho e => hw (e ▸ hopsin o ho)
        omega
    have hlen : ops.length = (app t).length - 1 := by
      rw [hperm.length_eq, List.length_dropLast]
    have hfold := opsFold_count_self t ops R hbudget
    rw [totalCount, List.map_congr_left (fun w _ => hfold w),
      sum_map_sub_nat wids _ _ (fun w _ => hbudget w),
      show (wids.map fun w => (R w).count t).sum = (app t).length from htot,
      sum_opsW wids hN ops hopsin, hlen]
    omega

theorem dedupBody_count_ne (wids : List Nat)
    (app : Nat → List (Nat × Nat)) (t t' : Nat) (h : t' ≠ t)
    (R : Nat → List Nat) (w : Nat) :
    ((dedupBody wids app R t) w).count t' = (R w).count t' := by
  rw [dedupBody]
  split
  · rfl
  · exact opsFold_count_ne t t' h _ R w

theorem dedupFoldList_preserve (wids : List Nat)
    (app : Nat → List (Nat × Nat)) (t : Nat) :
    ∀ (ts : List Nat) (R : Nat → List Nat), t ∉ ts → ∀ w,
      ((ts.foldl (dedupBody wids app) R) w).count t = (R w).count t
  | [], _, _, _ => rfl
  | t0 :: rest, R, hmem, w => by
    have hne : t ≠ t0 := fun e => hmem (by rw [e]; exact List.mem_cons_self t0 rest)
    have ih := dedupFoldList_preserve wids app t rest
      (dedupBody wids app R t0) (fun hc => hmem (List.mem_cons_of_mem _ hc)) w
    show ((rest.foldl (dedupBody wids app)
      (dedupBody wids app R t0)) w).count t = _
    rw [ih, dedupBody_count_ne wids app t0 t hne R w]

theorem dedupFoldList_total (wids : List Nat) (hN : wids.Nodup)
    (app : Nat → List (Nat × Nat))
    (happ : ∀ u, ∀ o ∈ app u, o.1 ∈ wids) :
    ∀ (ts : List Nat) (R : Nat → List Nat) (t : Nat), t ∈ ts → ts.Nodup →
      (∀ w ∈ wids, (R w).count t = opsW (app t) w) →
      totalCount wids (ts.foldl (dedupBody wids app) R) t =
        min ((app t).length) 1
  | [], _, t, hmem, _, _ => absurd hmem (by simp)
  | t0 :: rest, R, t, hmem, hnd, hcnt => by
    have hnd' := (List.nodup_cons.mp hnd).2
    have ht0 := (List.nodup_cons.mp hnd).1
    show totalCount wids (rest.foldl (dedupBody wids app)
      (dedupBody wids app R t0)) t = _
    rcases List.mem_cons.mp hmem with rfl | hmem'
    · have hbody := dedupBody_total wids hN app t (happ t) R hcnt
      rw [totalCount, List.map_congr_left (fun w _ =>
        dedupFoldList_preserve wids app t rest (dedupBody wids app R t) ht0 w)]
      exact hbody
    · have hne : t ≠ t0 := fun e => ht0 (e ▸ hmem')
      have hcnt' : ∀ w ∈ wids, ((dedupBody wids app R t0) w).count t =
          opsW (app t) w := fun w hw => by
        rw [dedupBody_count_ne wids app t0 t hne R w]
        exact hcnt w hw
      exact dedupFoldList_total wids hN app happ rest _ t hmem' hnd' hcnt'

theorem dedupPhase_total (wids : List Nat) (hN : wids.Nodup)
    (routes : Nat → List Nat) (T t : Nat) (hT : t < T) :
    totalCount wids (dedupPhase wids T routes) t =
      min (totalCount wids routes t) 1 := by
  have hcnt : ∀ w ∈ wids, (routes w).count t =
      opsW (appearancesOf wids routes T t) w := fun w hw =>
    (opsW_appearancesOf T t hT routes wids hN w hw).symm
  have hmain := dedupFoldList_total wids hN (appearancesOf wids routes T)
    (fun u => mem_appearancesOf wids routes T u) (List.range T) routes t
    (List.mem_range.mpr hT) (List.nodup_range T) hcnt
  rw [totalCount_eq_app_length wids hN routes T t hT]
  exact hmain


theorem getD_mem_of_lt : ∀ (l : List α) (n : Nat) (d : α),
    n < l.length → l.getD n d ∈ l
  | [], _, _, h => absurd h (by simp)
  | x :: xs, 0, d, _ => List.mem_cons_self x xs
  | x :: xs, n + 1, d, h =>
    List.mem_cons_of_mem x (getD_mem_of_lt xs n d (by simpa using h))

theorem insertIdx_perm_cons (a : Nat) :
    ∀ (l : List Nat) (n : Nat), n ≤ l.length →
      List.Perm (l.insertIdx n a) (a :: l)
  | l, 0, _ => by rw [List.insertIdx_zero]
  | [], n + 1, h => absurd h (by simp)
  | x :: xs, n + 1, h => by
    rw [List.insertIdx_succ_cons]
    exact ((insertIdx_perm_cons a xs n (by simpa using h)).cons x).trans
      (List.Perm.swap a x xs)

theorem count_insertIdx (a u : Nat) (l : List Nat) (n : Nat)
    (h : n ≤ l.length) :
    (l.insertIdx n a).count u = l.count u + (if u = a then 1 else 0) := by
  rw [(insertIdx_perm_cons a l n h).count_eq]
  by_cases hc : u = a <;> simp [List.count_cons, hc]

theorem totalCount_updRoute (R : Nat → List Nat) (l : List Nat) (t : Nat) :
    ∀ (wids : List Nat), wids.Nodup → ∀ w ∈ wids,
      totalCount wids (updRoute R w l) t + (R w).count t =
        totalCount wids R t + l.count t
  | [], _, w, hw => absurd hw (by simp)
  | w0 :: ws, hN, w, hw => by
    have hN' := (List.nodup_cons.mp hN).2
    have hw0 := (List.nodup_cons.mp hN).1
    rcases List.mem_cons.mp hw with rfl | hmem
    · have hupd0 : (updRoute R w l) w = l := by simp [updRoute]
      have hother : ws.map (fun v => ((updRoute R w l) v).count t) =
          ws.map fun v => (R v).count t :=
        List.map_congr_left fun v hv => by
          have hvne : v ≠ w := fun e => hw0 (e ▸ hv)
          simp [updRoute, hvne]
      rw [totalCount, totalCount]
      simp only [List.map_cons, List.sum_cons, hupd0, hother]
      omega
    · have hne : w ≠ w0 := fun e => hw0 (e ▸ hmem)
      have ih := totalCount_updRoute R l t ws hN' w hmem
      have h0 : (updRoute R w l) w0 = R w0 := by
        simp [updRoute, Ne.symm hne]
      rw [totalCount, totalCount] at ih ⊢
      simp only [List.map_cons, List.sum_cons, h0]
      omega

theorem insertAll_total (wids : List Nat) (hw : wids ≠ [])
    (hN : wids.Nodup) (Lmax : Nat) (cW cP : Nat → Nat) (t : Nat) :
    ∀ (ts : List Nat) (n : Nat) (R : Nat → List Nat),
      totalCount wids (insertAll wids Lmax cW cP n ts R) t =
        totalCount wids R t + ts.count t
  | [], n, R => by simp [insertAll]
  | t0 :: rest, n, R => by
    have hcsne : (if (wids.filter fun w => (R w).length < Lmax).isEmpty
        then wids else wids.filter fun w => (R w).length < Lmax) ≠ [] := by
      split
      · exact hw
      · next hne =>
        intro e
        exact hne (by rw [e]; rfl)
    have hcssub : ∀ x ∈ (if (wids.filter fun w =>
        (R w).length < Lmax).isEmpty then wids
        else wids.filter fun w => (R w).length < Lmax), x ∈ wids := by
      split
      · exact fun x hx => hx
      · exact fun x hx => List.mem_of_mem_filter hx
    have hlen : 0 < (if (wids.filter fun w => (R w).length < Lmax).isEmpty
        then wids else wids.filter fun w => (R w).length < Lmax).length :=
      List.length_pos.mpr hcsne
    have hwmem := hcssub _ (getD_mem_of_lt _ _ 0 (Nat.mod_lt (cW n) hlen))
    set w0 := (if (wids.filter fun w => (R w).length < Lmax).isEmpty
      then wids else wids.filter fun w => (R w).length < Lmax).getD
      (cW n % (if (wids.filter fun w => (R w).length < Lmax).isEmpty
        then wids else wids.filter fun w => (R w).length < Lmax).length) 0
      with hw0def
    have hpos : cP n % ((R w0).length + 1) ≤ (R w0).length := by
      have h := Nat.mod_lt (cP n) (show 0 < (R w0).length + 1 by omega)
      omega
    have hc := count_insertIdx t0 t (R w0) (cP n % ((R w0).length + 1)) hpos
    have hupd := totalCount_updRoute R
      ((R w0).insertIdx (cP n % ((R w0).length + 1)) t0) t wids hN w0 hwmem
    have ih := insertAll_total wids hw hN Lmax cW cP t rest (n + 1)
      (updRoute R w0 ((R w0).insertIdx (cP n % ((R w0).length + 1)) t0))
    show totalCount wids (insertAll wids Lmax cW cP (n + 1) rest
      (updRoute R w0 ((R w0).insertIdx (cP n % ((R w0).length + 1)) t0))) t
      = totalCount wids R t + (t0 :: rest).count t
    rw [ih]
    rw [hc] at hupd
    simp only [List.count_cons]
    by_cases hct : t0 = t
    · simp [hct] at hupd ⊢
      omega
    · simp [hct, Ne.symm hct] at hupd ⊢
      omega


theorem removeAt_subset (t : Nat) (r : List Nat) (pos : Nat) :
    ∀ x ∈ removeAt t r pos, x ∈ r := by
  intro x hx
  rw [removeAt] at hx
  split at hx
  · exact (List.eraseIdx_sublist r pos).subset hx
  · exact (List.erase_sublist t r).subset hx

theorem opsFold_subset (t : Nat) :
    ∀ (ops : List (Nat × Nat)) (R : Nat → List Nat) (w x : Nat),
      x ∈ (opsFold t ops R) w → x ∈ R w
  | [], _, _, _ => fun h => h
  | o :: rest, R, w, x => fun h => by
    have ih := opsFold_subset t rest
      (updRoute R o.1 (removeAt t (R o.1) o.2)) w x
      (by rw [opsFold_cons] at h; exact h)
    by_cases hv : w = o.1
    · have hup : (updRoute R o.1 (removeAt t (R o.1) o.2)) w =
          removeAt t (R o.1) o.2 := by simp [updRoute, hv]
      rw [hup] at ih
      rw [hv]
      exact removeAt_subset t (R o.1) o.2 x ih
    · have hup : (updRoute R o.1 (removeAt t (R o.1) o.2)) w = R w := by
        simp [updRoute, hv]
      rw [hup] at ih
      exact ih

theorem dedupBody_subset (wids : List Nat)
    (app : Nat → List (Nat × Nat)) (R : Nat → List Nat) (t w x : Nat) :
    x ∈ (dedupBody wids app R t) w → x ∈ R w := by
  rw [dedupBody]
  split
  · exact fun h => h
  · exact opsFold_subset t _ R w x

theorem dedupFoldList_subset :
    ∀ (ts : List Nat) (wids : List Nat) (app : Nat → List (Nat × Nat))
      (R : Nat → List Nat) (w x : Nat),
      x ∈ (ts.foldl (dedupBody wids app) R) w → x ∈ R w
  | [], _, _, _, _, _ => fun h => h
  | t0 :: rest, wids, app, R, w, x => fun h =>
    dedupBody_subset wids app R t0 w x
      (dedupFoldList_subset rest wids app (dedupBody wids app R t0) w x h)

theorem dedupPhase_subset (wids : List Nat) (T : Nat)
    (routes : Nat → List Nat) (w x : Nat) :
    x ∈ (dedupPhase wids T routes) w → x ∈ routes w :=
  dedupFoldList_subset (List.range T) wids (appearancesOf wids routes T)
    routes w x

theorem insertAll_mem (wids : List Nat) (Lmax : Nat) (cW cP : Nat → Nat) :
    ∀ (ts : List Nat) (n : Nat) (R : Nat → List Nat) (w x : Nat),
      x ∈ (insertAll wids Lmax cW cP n ts R) w → x ∈ R w ∨ x ∈ ts
  | [], _, _, _, _ => fun h => Or.inl h
  | t0 :: rest, n, R, w, x => fun h => by
    set w0 := (if (wids.filter fun v => (R v).length < Lmax).isEmpty
      then wids else wids.filter fun v => (R v).length < Lmax).getD
      (cW n % (if (wids.filter fun v => (R v).length < Lmax).isEmpty
        then wids else wids.filter fun v => (R v).length < Lmax).length) 0
      with hw0def
    have hpos : cP n % ((R w0).length + 1) ≤ (R w0).length := by
      have hlt := Nat.mod_lt (cP n) (show 0 < (R w0).length + 1 by omega)
      omega
    rcases insertAll_mem wids Lmax cW cP rest (n + 1)
      (updRoute R w0 ((R w0).insertIdx (cP n % ((R w0).length + 1)) t0))
      w x h with h1 | h2
    · by_cases hvw : w = w0
      · have hup : (updRoute R w0 ((R w0).insertIdx
            (cP n % ((R w0).length + 1)) t0)) w =
            (R w0).insertIdx (cP n % ((R w0).length + 1)) t0 := by
          simp [updRoute, hvw]
        rw [hup] at h1
        have hm := (insertIdx_perm_cons t0 (R w0) _ hpos).mem_iff.mp h1
        rcases List.mem_cons.mp hm with rfl | hin
        · exact Or.inr (List.mem_cons_self _ _)
        · exact Or.inl (by rw [hvw]; exact hin)
      · have hup : (updRoute R w0 ((R w0).insertIdx
            (cP n % ((R w0).length + 1)) t0)) w = R w := by
          simp [updRoute, hvw]
        rw [hup] at h1
        exact Or.inl h1
    · exact Or.inr (List.mem_cons_of_mem t0 h2)

theorem repairRoutes_partition (wids : List Nat) (T Lmax : Nat)
    (cW cP : Nat → Nat) (routes : Nat → List Nat) (order : List Nat)
    (hw : wids ≠ []) (hN : wids.Nodup) (hOn : order.Nodup)
    (hOiff : ∀ t, t < T →
      (t ∈ order ↔ ∀ w ∈ wids, t ∉ dedupPhase wids T routes w)) :
    ∀ t, t < T →
      totalCount wids (repairRoutes wids T Lmax cW cP order routes) t = 1 := by
  intro t hT
  have hded := dedupPhase_total wids hN routes T t hT
  have hins := insertAll_total wids hw hN Lmax cW cP t order 0
    (dedupPhase wids T routes)
  have hzero_iff : totalCount wids (dedupPhase wids T routes) t = 0 ↔
      ∀ w ∈ wids, t ∉ dedupPhase wids T routes w := by
    rw [totalCount, List.sum_eq_zero_iff]
    constructor
    · intro h0 w hw' hmem
      have hc := h0 _ (List.mem_map_of_mem _ hw')
      exact (List.count_eq_zero.mp hc) hmem
    · intro hall c hc
      rcases List.mem_map.mp hc with ⟨w, hw', rfl⟩
      exact List.count_eq_zero.mpr (hall w hw')
  rw [repairRoutes, hins]
  by_cases hz : totalCount wids (dedupPhase wids T routes) t = 0
  · have hmemo : t ∈ order := (hOiff t hT).mpr (hzero_iff.mp hz)
    rw [hz, List.count_eq_one_of_mem hOn hmemo]
  · have hnmem : t ∉ order := fun hmem =>
      hz (hzero_iff.mpr ((hOiff t hT).mp hmem))
    rw [List.count_eq_zero.mpr hnmem]
    omega

theorem repairRoutes_mem_lt (wids : List Nat) (T Lmax : Nat)
    (cW cP : Nat → Nat) (routes : Nat → List Nat) (order : List Nat)
    (hval : ∀ w ∈ wids, ∀ x ∈ routes w, x < T)
    (hOlt : ∀ t ∈ order, t < T) :
    ∀ w ∈ wids, ∀ x ∈ repairRoutes wids T Lmax cW cP order routes w,
      x < T := by
  intro w hw x hx
  rcases insertAll_mem wids Lmax cW cP order 0 (dedupPhase wids T routes)
    w x hx with h1 | h2
  · exact hval w hw x (dedupPhase_subset wids T routes w x h1)
  · exact hOlt x h2

theorem totalCountL_set_append (t0 t : Nat) :
    ∀ (routes : List (List Nat)) (i : Nat), i < routes.length →
      totalCountL (routes.set i (routes.getD i [] ++ [t0])) t =
        totalCountL routes t + (if t0 = t then 1 else 0)
  | [], i, h => absurd h (by simp)
  | r :: rs, 0, _ => by
    show totalCountL ((r ++ [t0]) :: rs) t = _
    by_cases hc : t0 = t <;>
      simp [totalCountL, List.count_append, hc, List.count_cons] <;> omega
  | r :: rs, i + 1, h => by
    have ih := totalCountL_set_append t0 t rs i (by simpa using h)
    show totalCountL (r :: rs.set i (rs.getD i [] ++ [t0])) t = _
    simp only [totalCountL, List.map_cons, List.sum_cons] at ih ⊢
    omega

theorem assignInit_total (numWorkers Lmax : Nat) (cW : Nat → Nat) (t : Nat) :
    ∀ (ts : List Nat) (n : Nat) (routes res : List (List Nat)),
      routes.length = numWorkers →
      assignInit numWorkers Lmax cW n ts routes = some res →
      totalCountL res t = totalCountL routes t + ts.count t
  | [], n, routes, res, _, h => by
    obtain rfl : routes = res := by simpa [assignInit] using h
    simp
  | t0 :: rest, n, routes, res, hlen, h => by
    simp only [assignInit] at h
    split at h
    · exact absurd h (by simp)
    · next hne =>
      set cs := (List.range numWorkers).filter fun i =>
        (routes.getD i []).length < Lmax with hcs
      have hcsne : cs ≠ [] := fun e => hne (by rw [e]; rfl)
      have hlt : 0 < cs.length := List.length_pos.mpr hcsne
      have hi := getD_mem_of_lt cs (cW n % cs.length) 0
        (Nat.mod_lt _ hlt)
      have hir : cs.getD (cW n % cs.length) 0 < numWorkers :=
        List.mem_range.mp (List.mem_of_mem_filter hi)
      have ih := assignInit_total numWorkers Lmax cW t rest (n + 1)
        (routes.set (cs.getD (cW n % cs.length) 0)
          (routes.getD (cs.getD (cW n % cs.length) 0) [] ++ [t0])) res
        (by rw [List.length_set]; exact hlen) h
      rw [ih, totalCountL_set_append t0 t routes _ (by omega)]
      by_cases hc : t0 = t <;> simp [hc, List.count_cons, Ne.symm] <;> omega

theorem assignTasksRandomly_partition (numWorkers T Lmax : Nat)
    (cW : Nat → Nat) (taskIds : List Nat) (res : List (List Nat))
    (hperm : List.Perm taskIds (List.range T))
    (h : assignTasksRandomly numWorkers T Lmax cW taskIds = some res) :
    ∀ t, t < T → totalCountL res t = 1 := by
  intro t hT
  rw [assignTasksRandomly] at h
  split at h
  · exact absurd h (by simp)
  · have htot := assignInit_total numWorkers Lmax cW t taskIds 0
      (List.replicate numWorkers []) res (by simp) h
    have hrep : totalCountL (List.replicate numWorkers []) t = 0 := by
      simp [totalCountL, List.map_replicate]
    have hcount : taskIds.count t = 1 := by
      rw [hperm.count_eq]
      exact List.count_eq_one_of_mem (List.nodup_range T)
        (List.mem_range.mpr hT)
    rw [htot, hrep, hcount]


/-- C3, corrected: the plan covers *all* task ids `0 .. num_tasks-1`
(with `num_tasks = len(model.tasks)`, done tasks included), not only the
non-done ones.  After `repair_routes_feasibility_routes` — for every RNG
outcome, any shuffled unassigned order, distinct workers, and in-range
input routes — every task id is carried by exactly one worker exactly
once, and routes contain nothing but task ids below `num_tasks`; the same
exactly-once property holds for the random initial assignment. -/
theorem c3_plan_task_partition :
    (∀ (wids : List Nat) (T Lmax : Nat) (cW cP : Nat → Nat)
        (routes : Nat → List Nat) (order : List Nat),
      wids ≠ [] → wids.Nodup → order.Nodup →
      (∀ t, t < T →
        (t ∈ order ↔ ∀ w ∈ wids, t ∉ dedupPhase wids T routes w)) →
      (∀ t ∈ order, t < T) →
      (∀ w ∈ wids, ∀ x ∈ routes w, x < T) →
      (∀ t, t < T →
        totalCount wids (repairRoutes wids T Lmax cW cP order routes) t
          = 1) ∧
      (∀ w ∈ wids, ∀ x ∈ repairRoutes wids T Lmax cW cP order routes w,
        x < T)) ∧
    (∀ (numWorkers T Lmax : Nat) (cW : Nat → Nat) (taskIds : List Nat)
        (res : List (List Nat)),
      List.Perm taskIds (List.range T) →
      assignTasksRandomly numWorkers T Lmax cW taskIds = some res →
      ∀ t, t < T → totalCountL res t = 1) := by
  constructor
  · intro wids T Lmax cW cP routes order hw hN hOn hOiff hOlt hval
    exact ⟨repairRoutes_partition wids T Lmax cW cP routes order hw hN hOn
        hOiff,
      repairRoutes_mem_lt wids T Lmax cW cP routes order hval hOlt⟩
  · intro numWorkers T Lmax cW taskIds res hperm h
    exact assignTasksRandomly_partition numWorkers T Lmax cW taskIds res
      hperm h

/-- A task that is already done. -/
def doneTaskC3 : TaskState := ⟨0, 1, 0, .done, some 0, 0, false⟩

/-- Counterexample to C3 as stated: the plan size is `len(model.tasks)`
regardless of status, so for a model whose single task is already done,
the repaired route of the only worker still contains that done task —
the union of routes is not the set of *non-done* task ids. -/
theorem c3_counterexample :
    doneTaskC3.status = .done ∧
    numTasksForPlan [doneTaskC3] = 1 ∧
    repairRoutes [0] (numTasksForPlan [doneTaskC3]) 1 (fun _ => 0)
      (fun _ => 0) [0] (fun _ => []) 0 = [0] :=
  ⟨rfl, rfl, by decide⟩

/-- Witness for C3 at a concrete instance: one worker, one task, empty
input routes; the repaired plan and the random initial assignment each
carry task `0` exactly once. -/
theorem c3_plan_task_partition_witness :
    totalCount [0] (repairRoutes [0] 1 1 (fun _ => 0) (fun _ => 0) [0]
      (fun _ => [])) 0 = 1 ∧
    totalCountL [[0]] 0 = 1 :=
  ⟨(c3_plan_task_partition.1 [0] 1 1 (fun _ => 0) (fun _ => 0)
      (fun _ => []) [0] (by decide) (by decide) (by decide) (by decide)
      (by decide) (by decide)).1 0 (by decide),
    c3_plan_task_partition.2 1 1 1 (fun _ => 0) [0] [[0]] (by decide)
      (by decide) 0 (by decide)⟩

end MoRoTA
